import Mathlib

/-!
A verification development for the ClaudeSync file-selection and
synchronization engine.  The Lean definitions below are a shallow
embedding of the Python sources:

  * `src/claudesync/utils.py`            — pattern matching, file
    classification and project file collection
    (`get_local_files`, `_collect_project_files`,
    `_collect_referenced_files`, `should_process_file`,
    `is_text_file`, `process_file`, `should_skip_directory`);
  * `src/claudesync/syncmanager.py`      — the reconciliation engine
    (`retry_on_403`, `_sync_without_compression`,
    `update_existing_file`, `upload_new_file`, `prune_remote_files`,
    `_pack_files`, `_unpack_files`);
  * `src/claudesync/project_references_manager.py`
    (`get_referenced_projects`).

External collaborators are abstracted at their interface boundary:
the MD5 hash (`hashlib.md5`) is an arbitrary function parameter
`md5 : String → String`; the filesystem is an explicit directory tree;
the remote provider is a pure state (list of remote file records plus
a fresh-uuid counter); `pathspec`'s `gitwildmatch` matching is modelled
for the pattern forms the configuration uses (slash-free glob patterns
matched against every path segment, slash patterns matched against the
whole relative path; `!`-negation is not modelled because no analysed
configuration uses it).
-/

namespace ClaudeSync

/-! ## Glob pattern matching (model of `pathspec` gitwildmatch) -/

/-- Glob matching of a pattern (chars, `*` and `?` wildcards) against a
string.  `*` matches any run of characters not containing `/`
(gitignore `*` does not cross directory separators); `?` matches one
non-`/` character; other characters match literally. -/
def globMatch : List Char → List Char → Bool
  | [], [] => true
  | [], _ :: _ => false
  | '*' :: ps, [] => globMatch ps []
  | '*' :: ps, c :: cs =>
      globMatch ps (c :: cs) || (c != '/' && globMatch ('*' :: ps) cs)
  | '?' :: ps, c :: cs => c != '/' && globMatch ps cs
  | _ :: _, [] => false
  | p :: ps, c :: cs => p == c && globMatch ps cs
  termination_by p s => (p.length, s.length)

/-- Split a character list at a separator character
(`str.split(sep)` for a one-character separator). -/
def splitChar (sep : Char) : List Char → List (List Char)
  | [] => [[]]
  | c :: rest =>
      if c = sep then [] :: splitChar sep rest
      else
        match splitChar sep rest with
        | [] => [[c]]
        | l :: ls => (c :: l) :: ls

/-- `str.startswith(pat)`. -/
def pyStartsWith (s pat : String) : Bool :=
  pat.toList.isPrefixOf s.toList

/-- `str.endswith(pat)`. -/
def pyEndsWith (s pat : String) : Bool :=
  pat.toList.isSuffixOf s.toList

/-- Path segments of a `/`-separated relative path. -/
def pathSegments (relPath : String) : List (List Char) :=
  splitChar '/' relPath.toList

/-- One gitwildmatch pattern applied to a relative path: a pattern
without `/` matches when any path segment matches it (gitignore
semantics for unanchored patterns); a pattern containing `/` is
matched against the whole relative path. -/
def matchPattern (pat : String) (relPath : String) : Bool :=
  if pat.toList.contains '/' then
    globMatch pat.toList relPath.toList
  else
    (pathSegments relPath).any fun seg => globMatch pat.toList seg

/-- A compiled `pathspec.PathSpec`: a list of gitwildmatch patterns.
`match_file` is true when some pattern matches; the empty pattern list
matches nothing. -/
def matchFile (spec : List String) (relPath : String) : Bool :=
  spec.any fun pat => matchPattern pat relPath

/-! ## Filesystem model -/

/-- A directory entry: a file with UTF-8 text content, or a
subdirectory.  (Files whose bytes are not valid UTF-8 are outside this
model; the Python code drops them during hashing, and no analysed
behaviour depends on them.) -/
inductive Entry where
  | file (name : String) (content : String)
  | dir (name : String) (children : List Entry)

/-- The name of an entry. -/
def Entry.name : Entry → String
  | .file n _ => n
  | .dir n _ => n

/-- UTF-8 encoded size in bytes of one character. -/
def charBytes (c : Char) : Nat :=
  if c.toNat < 0x80 then 1
  else if c.toNat < 0x800 then 2
  else if c.toNat < 0x10000 then 3
  else 4

/-- `os.path.getsize` on a text file: the UTF-8 byte length of its
content. -/
def byteLen (s : String) : Nat :=
  (s.data.map charBytes).sum

/-- The characters of a string that fit entirely within the first `n`
bytes of its UTF-8 encoding (a truncated trailing multi-byte character
cannot contain a NUL byte, so NUL detection on these characters agrees
with NUL detection on the raw byte sample). -/
def takeBytes : Nat → List Char → List Char
  | _, [] => []
  | n, c :: cs => if charBytes c ≤ n then c :: takeBytes (n - charBytes c) cs else []

/-- `is_text_file` (utils.py): read up to 8192 bytes and report text
iff no NUL byte occurs in the sample. -/
def is_text_file (content : String) : Bool :=
  !((takeBytes 8192 content.data).contains (Char.ofNat 0))

/-- Look up a path (list of segments) in a directory listing. -/
def findEntry : List Entry → List String → Option Entry
  | _, [] => none
  | entries, [seg] => entries.find? fun e => e.name == seg
  | entries, seg :: rest =>
      match entries.find? fun e => e.name == seg with
      | some (.dir _ children) => findEntry children rest
      | _ => none

/-- Lines of an ignore file as `pathspec.PathSpec.from_lines` keeps
them: blank lines and `#` comments contribute no pattern. -/
def ignoreLines (content : String) : List String :=
  ((splitChar '\n' content.toList).map fun l => String.mk l).filter
    fun l => l ≠ "" && !pyStartsWith l "#"

/-- `load_gitignore` (utils.py): parse `.gitignore` at the root into a
pattern spec, `none` when the file does not exist. -/
def load_gitignore (tree : List Entry) : Option (List String) :=
  match tree.find? fun e => e.name == ".gitignore" with
  | some (.file _ content) => some (ignoreLines content)
  | _ => none

/-- `load_claudeignore` (utils.py): parse `.claudeignore` at the root
into a pattern spec, `none` when the file does not exist. -/
def load_claudeignore (tree : List Entry) : Option (List String) :=
  match tree.find? fun e => e.name == ".claudeignore" with
  | some (.file _ content) => some (ignoreLines content)
  | _ => none

/-! ## Configuration and file records -/

/-- `FileSource` (utils.py). -/
def FileSource.MAIN : String := "main"

/-- `FileSource.REFERENCED` (utils.py). -/
def FileSource.REFERENCED : String := "referenced"

/-- A project's `files_config` dictionary as read by `get_local_files`
and `_collect_project_files`.  `includes = none` models a configuration
with no `includes` key at all (`files_config.get('includes', ['*'])`
then yields `['*']`); `includes = some l` models an explicit list. -/
structure FilesConfig where
  includes : Option (List String) := none
  excludes : List String := []
  use_ignore_files : Bool := true
  push_roots : List String := []
  references : List String := []

/-- A referenced project as reachable through one entry of the private
reference-path map: the parsed configuration at the referenced
`.project.json` (`none` when `_load_referenced_project_config` fails),
the referenced project's directory tree (rooted two levels above the
config file) and the string recorded as that root path. -/
structure RefProject where
  config : Option FilesConfig := none
  tree : List Entry := []
  rootName : String := ""

/-- The global config manager as consulted by `should_process_file`
(`max_file_size`, `use_ignore_files`) and by `get_local_files` for the
reference-path map (`none` models `get_active_project` /
`_get_reference_paths` raising, which makes `get_local_files` return
only the main files). -/
structure ConfigMgr where
  max_file_size : Nat := 32768
  use_ignore_files : Bool := true
  reference_paths : Option (List (String × RefProject)) := none

/-- `FileInfo` (utils.py): provenance-annotated fingerprint of one
collected file. -/
structure FileInfo where
  path : String
  hash : String
  source : String
  project_id : Option String
  root_path : String
  included : Bool
deriving DecidableEq, Repr

/-- Matching against an optional pattern spec (`None` specs never
match). -/
def optMatch (spec : Option (List String)) (relPath : String) : Bool :=
  match spec with
  | some s => matchFile s relPath
  | none => false

/-- `should_process_file` (utils.py): admission checks for one
candidate file, in source order — size, editor temp suffix, ignore
files (when enabled in the global config), category excludes, then the
text sniff.  The file's content stands in for its path on disk: the
size check reads the UTF-8 byte length and the text sniff inspects the
first 8192 bytes. -/
def should_process_file (cm : ConfigMgr) (content : String)
    (filename relPath : String)
    (gitignore claudeignore category_excludes : Option (List String)) : Bool :=
  if byteLen content > cm.max_file_size then false
  else if pyEndsWith filename "~" then false
  else if cm.use_ignore_files && optMatch gitignore relPath then false
  else if cm.use_ignore_files && optMatch claudeignore relPath then false
  else if optMatch category_excludes relPath then false
  else is_text_file content

/-- `process_file` (utils.py): read a file as UTF-8 and return its MD5
hash.  In this model every file content is a valid UTF-8 string, so
the read always succeeds; the hash function is the `md5` parameter. -/
def process_file (md5 : String → String) (content : String) : Option String :=
  some (md5 content)

/-- `should_skip_directory` (utils.py): prune a directory when its
relative path with a trailing `/` matches claudeignore, gitignore or
the category excludes (checked in that order). -/
def should_skip_directory (relPath : String)
    (gitignore claudeignore category_excludes : Option (List String)) : Bool :=
  optMatch claudeignore (relPath ++ "/") ||
  optMatch gitignore (relPath ++ "/") ||
  optMatch category_excludes (relPath ++ "/")

/-- The fixed set of VCS/tooling directory names pruned during
traversal. -/
def excludeDirs : List String :=
  [".git", ".svn", ".hg", ".bzr", "_darcs", "CVS", "claude_chats", ".claudesync"]

/-! ## Project file collection -/

/-- Join a relative-path prefix with a child name
(`os.path.relpath(os.path.join(root, name), root_path)` with
forward slashes). -/
def joinRel (pre name : String) : String :=
  if pre = "" then name else pre ++ "/" ++ name

/-- The per-walk parameters shared by `_collect_project_files` and
`_collect_referenced_files` (whose traversal bodies are line-for-line
duplicates in the source, modulo the provenance recorded in each
`FileInfo` and the absence of category excludes for references). -/
structure WalkParams where
  md5 : String → String
  cm : ConfigMgr
  include_spec : List String
  exclude_spec : Option (List String)
  gitignore : Option (List String)
  claudeignore : Option (List String)
  category_excludes : Option (List String)
  use_ignore_files : Bool
  source : String
  project_id : Option String
  rootName : String

/-- The `for filename in filenames` body of the collection walk, for
one file: keep it when it matches the include spec, does not match
the exclude spec, passes `should_process_file` (with ignore specs
passed only when ignore files are enabled) and hashes successfully. -/
def fileRecord (P : WalkParams) (pre filename content : String) :
    Option (String × FileInfo) :=
  let rel := joinRel pre filename
  let matches_include := matchFile P.include_spec rel
  let matches_exclude := optMatch P.exclude_spec rel
  if matches_include && !matches_exclude &&
      should_process_file P.cm content filename rel
        (if P.use_ignore_files then P.gitignore else none)
        (if P.use_ignore_files then P.claudeignore else none)
        P.category_excludes then
    match process_file P.md5 content with
    | some h =>
        some (rel, ⟨rel, h, P.source, P.project_id, P.rootName, true⟩)
    | none => none
  else none

/-- The `dirs[:] = ...` pruning test: a subdirectory is skipped when
its name is in the fixed VCS/tooling set, or (when ignore files are
enabled) when `should_skip_directory` matches it. -/
def pruneDir (P : WalkParams) (pre dname : String) : Bool :=
  excludeDirs.contains dname ||
  (P.use_ignore_files &&
    should_skip_directory (joinRel pre dname)
      P.gitignore P.claudeignore P.category_excludes)

/-- The top-down `os.walk` of the collector over one directory
listing, split into the records of the listing's own files (first
component) and the records collected below its surviving
subdirectories (second component); `os.walk` yields a directory
before its subdirectories, so the collected order is the
concatenation `walkDC.1 ++ walkDC.2`. -/
def walkDC (P : WalkParams) (pre : String) :
    List Entry → List (String × FileInfo) × List (String × FileInfo)
  | [] => ([], [])
  | .file filename content :: rest =>
      let r := walkDC P pre rest
      (match fileRecord P pre filename content with
       | some kv => kv :: r.1
       | none => r.1, r.2)
  | .dir dname children :: rest =>
      let r := walkDC P pre rest
      if pruneDir P pre dname then r
      else
        let rc := walkDC P (joinRel pre dname) children
        (r.1, (rc.1 ++ rc.2) ++ r.2)

/-- All records produced by walking one directory listing. -/
def walkDir (P : WalkParams) (pre : String) (entries : List Entry) :
    List (String × FileInfo) :=
  (walkDC P pre entries).1 ++ (walkDC P pre entries).2

/-- Traversal of one configured root below the project root:
`os.path.exists` failing skips the root with a warning; a root that
exists but is a plain file makes `os.walk` yield nothing. -/
def walkRoot (P : WalkParams) (tree : List Entry) (root : String) :
    List (String × FileInfo) :=
  match findEntry tree (((splitChar '/' root.toList).map fun l => String.mk l)) with
  | none => []
  | some (.file _ _) => []
  | some (.dir _ children) => walkDir P root children

/-- Python dict assignment `files[rel_path] = info`: replace in place
when the key exists, append otherwise. -/
def dictInsert (m : List (String × FileInfo)) (kv : String × FileInfo) :
    List (String × FileInfo) :=
  if (m.lookup kv.1).isSome then
    m.map fun p => if p.1 = kv.1 then kv else p
  else m ++ [kv]

/-- The push-root derivation of `_collect_project_files` (main
projects): for every include pattern other than the literal `*`, the
pattern's first `/`-segment is appended as a traversal root when it is
non-empty, not `*` and not already present.  (The source comments
that this treats `*.py` as a directory.) -/
def derivePushRootsMain (includes : List String) : List String :=
  includes.foldl
    (fun acc pattern =>
      if pattern = "*" then acc
      else
        let base_dir := String.mk ((splitChar '/' pattern.toList).headD [])
        if base_dir ≠ "" && base_dir ≠ "*" && !acc.contains base_dir then
          acc ++ [base_dir]
        else acc)
    []

/-- The push-root derivation of `_collect_referenced_files`: as the
main-project variant but with no special casing of `*` patterns. -/
def derivePushRootsRef (includes : List String) : List String :=
  includes.foldl
    (fun acc pattern =>
      let base_dir := String.mk ((splitChar '/' pattern.toList).headD [])
      if base_dir ≠ "" && !acc.contains base_dir then acc ++ [base_dir]
      else acc)
    []

/-- `_collect_project_files` (utils.py): determine the traversal roots
(configured push roots, else — for the main project — roots derived
from the include patterns, else the whole project root), walk each
root and accumulate the results into one path-keyed dictionary. -/
def _collect_project_files (md5 : String → String) (cm : ConfigMgr)
    (tree : List Entry) (files_config : FilesConfig) (source : String)
    (include_spec : List String)
    (exclude_spec gitignore claudeignore category_excludes : Option (List String))
    (use_ignore_files : Bool) (project_id : Option String)
    (rootName : String) : List (String × FileInfo) :=
  let push_roots := files_config.push_roots
  let push_roots :=
    if push_roots.isEmpty && source == FileSource.MAIN then
      derivePushRootsMain (files_config.includes.getD ["*"])
    else push_roots
  let P : WalkParams :=
    ⟨md5, cm, include_spec, exclude_spec, gitignore, claudeignore,
      category_excludes, use_ignore_files, source, project_id, rootName⟩
  let rootItems :=
    if push_roots.isEmpty then [walkDir P "" tree]
    else push_roots.map (walkRoot P tree)
  rootItems.flatten.foldl dictInsert []

/-- `_collect_referenced_files` (utils.py): collect one referenced
project's files using its own configuration.  A reference id without a
path mapping, or whose configuration fails to load, contributes the
empty dictionary (logged as a warning in the source). -/
def _collect_referenced_files (md5 : String → String) (cm : ConfigMgr)
    (ref_id : String) (reference_paths : List (String × RefProject))
    (use_ignore_files : Bool) : List (String × FileInfo) :=
  match reference_paths.lookup ref_id with
  | none => []
  | some proj =>
    match proj.config with
    | none => []
    | some ref_config =>
      let includes := ref_config.includes.getD ["*"]
      let excludes := ref_config.excludes
      let include_spec := includes
      let exclude_spec := if excludes.isEmpty then none else some excludes
      let gitignore := if use_ignore_files then load_gitignore proj.tree else none
      let claudeignore := if use_ignore_files then load_claudeignore proj.tree else none
      let push_roots :=
        if ref_config.push_roots.isEmpty then derivePushRootsRef includes
        else ref_config.push_roots
      let P : WalkParams :=
        ⟨md5, cm, include_spec, exclude_spec, gitignore, claudeignore,
          none, use_ignore_files, FileSource.REFERENCED, some ref_id,
          proj.rootName⟩
      let rootItems :=
        if push_roots.isEmpty then [walkDir P "" proj.tree]
        else push_roots.map (walkRoot P proj.tree)
      rootItems.flatten.foldl dictInsert []

/-- The main-project collection performed by `get_local_files` (the
call at utils.py line 101, with the specs it computes). -/
def getLocalMain (md5 : String → String) (cm : ConfigMgr)
    (tree : List Entry) (files_config : FilesConfig) (rootName : String) :
    List (String × FileInfo) :=
  let use_ignore_files := files_config.use_ignore_files
  let gitignore := if use_ignore_files then load_gitignore tree else none
  let claudeignore := if use_ignore_files then load_claudeignore tree else none
  let includes := files_config.includes.getD ["*"]
  let excludes := files_config.excludes
  let exclude_spec := if excludes.isEmpty then none else some excludes
  _collect_project_files md5 cm tree files_config FileSource.MAIN
    includes exclude_spec gitignore claudeignore none use_ignore_files
    none rootName

/-- `get_local_files` (utils.py): collect the main project's files,
then merge each referenced project's files, never overwriting an
already-present relative path.  A failure to obtain the reference-path
map returns just the main files. -/
def get_local_files (md5 : String → String) (cm : ConfigMgr)
    (tree : List Entry) (files_config : FilesConfig) (rootName : String) :
    List (String × FileInfo) :=
  let main_files := getLocalMain md5 cm tree files_config rootName
  if files_config.references.isEmpty then main_files
  else
    match cm.reference_paths with
    | none => main_files
    | some reference_paths =>
        files_config.references.foldl
          (fun all_files ref_id =>
            let ref_files := _collect_referenced_files md5 cm ref_id
              reference_paths files_config.use_ignore_files
            ref_files.foldl
              (fun acc pfi =>
                if (acc.lookup pfi.1).isSome then acc else acc ++ [pfi])
              all_files)
          main_files

/-! ## The sync engine (`syncmanager.py`)

The remote provider is modelled as a pure state: the list of remote
file records plus a counter from which fresh uuids are drawn.
`provider.list_files` at run start returns exactly the current record
list, so the listing handed to `sync` is the `files` field of the
state the run begins in.  The observable provider mutations
(`upload_file`, `delete_file`) are recorded as an operation trace. -/

/-- A remote file record (`{file_name, uuid, content}`; `created_at`
is consumed only by the local-mtime bookkeeping, which mutates no
synchronised content and is not tracked here). -/
structure RemoteFile where
  file_name : String
  uuid : Nat
  content : String
deriving DecidableEq, Repr

/-- The remote provider's state. -/
structure RemoteState where
  files : List RemoteFile
  nextUuid : Nat
deriving DecidableEq, Repr

/-- A provider mutation performed during a sync run. -/
inductive Op where
  | upload (file_name content : String)
  | delete (uuid : Nat)
deriving DecidableEq, Repr

/-- `provider.upload_file`: a new record with a fresh uuid. -/
def RemoteState.uploadFile (st : RemoteState) (name content : String) :
    RemoteState :=
  ⟨st.files ++ [⟨name, st.nextUuid, content⟩], st.nextUuid + 1⟩

/-- `provider.delete_file`: remove the record with the given uuid. -/
def RemoteState.deleteFile (st : RemoteState) (uuid : Nat) : RemoteState :=
  ⟨st.files.filter fun rf => rf.uuid ≠ uuid, st.nextUuid⟩

/-- The values of the `local_files` mapping handed to `sync`: either a
plain hash string, or a dictionary with a hash and an optional root
path (`isinstance` branching at syncmanager.py lines 93–94). -/
inductive FileVal where
  | hashOnly (h : String)
  | dict (h : String) (root : Option String)
deriving DecidableEq, Repr

/-- `local_hash`: the hash string carried by a `FileVal`. -/
def FileVal.localHash : FileVal → String
  | .hashOnly h => h
  | .dict h _ => h

/-- `file_root`: the root path recorded in a dict-shaped value,
defaulting to the sync manager's `local_path`. -/
def FileVal.fileRoot (fv : FileVal) (local_path : String) : String :=
  match fv with
  | .hashOnly _ => local_path
  | .dict _ r => r.getD local_path

/-- The sync-relevant configuration of a `SyncManager`. -/
structure SyncCfg where
  local_path : String := ""
  two_way_sync : Bool := false
  prune_remote_files : Bool := false

/-- `os.path.join(root, rel)` for a relative second component. -/
def joinPath (root rel : String) : String :=
  root ++ "/" ++ rel

/-- The local filesystem visible to the sync engine: full path →
content. -/
def diskRead (disk : List (String × String)) (p : String) : Option String :=
  disk.lookup p

/-- Writing a local file (two-way sync): replace or append. -/
def diskWrite (disk : List (String × String)) (p content : String) :
    List (String × String) :=
  if (disk.lookup p).isSome then
    disk.map fun kv => if kv.1 = p then (p, content) else kv
  else disk ++ [(p, content)]

/-- `next((rf for rf in remote_files if rf["file_name"] == name), None)`. -/
def findRemote (files : List RemoteFile) (name : String) : Option RemoteFile :=
  files.find? fun rf => rf.file_name == name

/-- Python `set.add`. -/
def setAdd (s : List String) (x : String) : List String :=
  if s.contains x then s else s ++ [x]

/-- Python `set(iterable)`: insertion-order deduplication. -/
def dedup (l : List String) : List String :=
  l.foldl setAdd []

/-- `update_existing_file` (syncmanager.py): recompute the remote
hash from the stored remote content; on mismatch delete the remote
record, re-read the local file and upload the fresh content (a failing
read is logged and re-raised, aborting the run); in both branches
remove the name from the deletion-candidate set.  (`set.remove` on the
Python side presupposes the name is present, which the sync loop
guarantees because candidates are seeded from the same listing the
record was found in; `List.erase` is its total counterpart.)
Returns the provider mutations, the provider state, the candidate set
and the synced-file set. -/
def update_existing_file (md5 : String → String)
    (disk : List (String × String)) (local_file local_hash : String)
    (remote_file : RemoteFile) (remote_files_to_delete synced_files : List String)
    (file_root : String) (st : RemoteState) :
    Except String (List Op × RemoteState × List String × List String) :=
  let remote_hash := md5 remote_file.content
  if local_hash ≠ remote_hash then
    let st1 := st.deleteFile remote_file.uuid
    match diskRead disk (joinPath file_root local_file) with
    | none => .error (joinPath file_root local_file)
    | some content =>
        .ok ([.delete remote_file.uuid, .upload local_file content],
          st1.uploadFile local_file content,
          remote_files_to_delete.erase local_file,
          setAdd synced_files local_file)
  else
    .ok ([], st, remote_files_to_delete.erase local_file, synced_files)

/-- `upload_new_file` (syncmanager.py): read the local file and upload
it (a failing read is logged and re-raised). -/
def upload_new_file (disk : List (String × String))
    (local_file : String) (synced_files : List String) (file_root : String)
    (st : RemoteState) :
    Except String (List Op × RemoteState × List String) :=
  match diskRead disk (joinPath file_root local_file) with
  | none => .error (joinPath file_root local_file)
  | some content =>
      .ok ([.upload local_file content], st.uploadFile local_file content,
        setAdd synced_files local_file)

/-- The local → remote loop of `_sync_without_compression`: each local
file is looked up in the run-start listing and updated or newly
uploaded. -/
def localPass (md5 : String → String) (cfg : SyncCfg)
    (disk : List (String × String)) (remote_files : List RemoteFile) :
    List (String × FileVal) → RemoteState → List String → List String →
    Except String (List Op × RemoteState × List String × List String)
  | [], st, cand, synced => .ok ([], st, cand, synced)
  | (local_file, file_info) :: rest, st, cand, synced =>
    match findRemote remote_files local_file with
    | some remote_file =>
        match update_existing_file md5 disk local_file file_info.localHash
            remote_file cand synced (file_info.fileRoot cfg.local_path) st with
        | .error e => .error e
        | .ok (ops, st1, cand1, synced1) =>
            match localPass md5 cfg disk remote_files rest st1 cand1 synced1 with
            | .error e => .error e
            | .ok (ops2, st2, cand2, synced2) =>
                .ok (ops ++ ops2, st2, cand2, synced2)
    | none =>
        match upload_new_file disk local_file synced
            (file_info.fileRoot cfg.local_path) st with
        | .error e => .error e
        | .ok (ops, st1, synced1) =>
            match localPass md5 cfg disk remote_files rest st1 cand synced1 with
            | .error e => .error e
            | .ok (ops2, st2, cand2, synced2) =>
                .ok (ops ++ ops2, st2, cand2, synced2)

/-- `sync_remote_to_local` (two-way sync): write a remote file's
content to the local path unless the name was already synced this run;
errors are caught per file. -/
def sync_remote_to_local (cfg : SyncCfg) (remote_file : RemoteFile)
    (synced : List String) (disk : List (String × String)) :
    List String × List (String × String) :=
  if synced.contains remote_file.file_name then (synced, disk)
  else
    (setAdd synced remote_file.file_name,
     diskWrite disk (joinPath cfg.local_path remote_file.file_name)
       remote_file.content)

/-- `prune_remote_files` / `delete_remote_files`: delete each
remaining candidate, looking its uuid up in the run-start listing; a
name no longer found there raises `StopIteration`, which is caught and
skipped. -/
def pruneLoop (remote_files : List RemoteFile) :
    List String → RemoteState → List Op × RemoteState
  | [], st => ([], st)
  | c :: cs, st =>
      match findRemote remote_files c with
      | none => pruneLoop remote_files cs st
      | some rf =>
          let r := pruneLoop remote_files cs (st.deleteFile rf.uuid)
          (.delete rf.uuid :: r.1, r.2)

/-- The observable result of one `_sync_without_compression` run. -/
structure SyncResult where
  ops : List Op
  st : RemoteState
  leftover : List String
  disk : List (String × String)
  synced : List String
deriving DecidableEq, Repr

/-- `_sync_without_compression` (syncmanager.py): seed the deletion
candidates from the run-start listing, run the local → remote pass,
optionally materialise remote-only files locally (two-way sync), and
finally prune the remaining candidates when pruning is enabled.
(`update_local_timestamps` only rewrites local modification times and
is not tracked.)  The run-start listing is the provider state's record
list, which is what `provider.list_files` returned at run start. -/
def _sync_without_compression (md5 : String → String) (cfg : SyncCfg)
    (local_files : List (String × FileVal)) (disk : List (String × String))
    (st : RemoteState) : Except String SyncResult :=
  let remote_files := st.files
  let cand0 := dedup (remote_files.map fun rf => rf.file_name)
  match localPass md5 cfg disk remote_files local_files st cand0 [] with
  | .error e => .error e
  | .ok (ops1, st1, cand1, synced1) =>
      let step2 :=
        if cfg.two_way_sync then
          remote_files.foldl
            (fun (p : List String × List (String × String)) rf =>
              sync_remote_to_local cfg rf p.1 p.2)
            (synced1, disk)
        else (synced1, disk)
      let step3 :=
        if cfg.prune_remote_files then pruneLoop remote_files cand1 st1
        else ([], st1)
      .ok ⟨ops1 ++ step3.1, step3.2, cand1, step2.2, step2.1⟩

/-! ## Retry policy (`retry_on_403`) -/

/-- Python `needle in haystack` on strings: contiguous-substring
containment, at the character level. -/
def containsSub : List Char → List Char → Bool
  | pat, [] => pat.isEmpty
  | pat, c :: rest => pat.isPrefixOf (c :: rest) || containsSub pat rest

/-- Does a provider error message carry the retryable 403 signal
(`"403 Forbidden" in str(e)`)? -/
def contains403 (msg : String) : Bool :=
  containsSub "403 Forbidden".toList msg.toList

/-- The `for attempt in range(max_retries)` loop of `retry_on_403`,
applied to an attempt-indexed call behaviour `f` (each attempt may
succeed or raise a provider error carrying a message), with
`remaining` iterations still ahead — the Python retry condition
`attempt < max_retries - 1` is exactly "at least one iteration remains
after this one".  Returns the final outcome (`.ok none` models the
loop exhausting without a `return`, reached only for
`max_retries = 0`), the number of attempts performed, and the list of
sleeps taken between attempts. -/
def retryGo (f : Nat → Except String α) (delay attempt : Nat) :
    Nat → Except String (Option α) × Nat × List Nat
  | 0 => (.ok none, 0, [])
  | remaining + 1 =>
      match f attempt with
      | .ok a => (.ok (some a), 1, [])
      | .error e =>
          if contains403 e && remaining ≠ 0 then
            let r := retryGo f delay (attempt + 1) remaining
            (r.1, r.2.1 + 1, delay :: r.2.2)
          else (.error e, 1, [])

/-- `retry_on_403` with its default parameters (`max_retries=3`,
`delay=1`), counting attempts from the first. -/
def retry_on_403 (f : Nat → Except String α) :
    Except String (Option α) × Nat × List Nat :=
  retryGo f 1 0 3

/-! ## Compressed-mode packing (`_pack_files` / `_unpack_files`)

File contents are handled at the character level (`List Char`) so the
byte-for-byte round-trip question can be stated precisely. -/

/-- The marker head the unpacker tests with
`line.startswith("--- BEGIN FILE:")` and splits on. -/
def beginMark : List Char := "--- BEGIN FILE:".toList

/-- The marker head the unpacker tests with
`line.startswith("--- END FILE:")`. -/
def endMark : List Char := "--- END FILE:".toList

/-- The ` ---` tail of both marker lines. -/
def tailMark : List Char := " ---".toList

/-- `f"--- BEGIN FILE: {file_path} ---"`. -/
def beginLine (p : List Char) : List Char :=
  beginMark ++ ' ' :: (p ++ tailMark)

/-- `f"--- END FILE: {file_path} ---"`. -/
def endLine (p : List Char) : List Char :=
  endMark ++ ' ' :: (p ++ tailMark)

/-- The stream `_pack_files` writes for one file: the begin marker
line, the file's content verbatim, then a newline and the end marker
line. -/
def packOne (p c : List Char) : List Char :=
  beginLine p ++ '\n' :: (c ++ '\n' :: (endLine p ++ ['\n']))

/-- `_pack_files` (syncmanager.py): concatenate the framed contents of
all local files, in mapping order.  (The Python code re-reads each
file from disk; here each pair carries the content that read
returns.) -/
def _pack_files (local_files : List (List Char × List Char)) : List Char :=
  (local_files.map fun f => packOne f.1 f.2).flatten

/-- The characters Python `str.splitlines()` breaks at: `\\n`, `\\r`,
`\\v`, `\\f`, `\\x1c`–`\\x1e`, `\\x85`, `U+2028` and `U+2029`
(`\\r\\n` counts as a single break). -/
def isLineBreak (c : Char) : Bool :=
  c = '\n' || c = '\r' || c = '\x0B' || c = '\x0C' || c = '\x1C' ||
  c = '\x1D' || c = '\x1E' || c = '\x85' || c = '\u2028' || c = '\u2029'

/-- Python `str.splitlines()`: break at every line-break character,
with `\\r\\n` counting as one break. -/
def pySplitlines : List Char → List (List Char)
  | [] => []
  | '\r' :: '\n' :: rest => [] :: pySplitlines rest
  | '\r' :: rest => [] :: pySplitlines rest
  | '\n' :: rest => [] :: pySplitlines rest
  | '\x0B' :: rest => [] :: pySplitlines rest
  | '\x0C' :: rest => [] :: pySplitlines rest
  | '\x1C' :: rest => [] :: pySplitlines rest
  | '\x1D' :: rest => [] :: pySplitlines rest
  | '\x1E' :: rest => [] :: pySplitlines rest
  | '\x85' :: rest => [] :: pySplitlines rest
  | '\u2028' :: rest => [] :: pySplitlines rest
  | '\u2029' :: rest => [] :: pySplitlines rest
  | c :: rest =>
      match pySplitlines rest with
      | [] => [[c]]
      | l :: ls => (c :: l) :: ls

/-- Python whitespace for `str.strip()`: the characters for which
`str.isspace()` holds — ASCII whitespace, the `\\x1c`–`\\x1f`
separators, NEL, NBSP, Ogham space mark, the `U+2000`–`U+200A` spaces,
the line and paragraph separators, `U+202F`, `U+205F` and the
ideographic space. -/
def isPySpace (c : Char) : Bool :=
  c = ' ' || c = '\t' || c = '\n' || c = '\r' ||
  c = '\x0B' || c = '\x0C' ||
  c = '\x1C' || c = '\x1D' || c = '\x1E' || c = '\x1F' ||
  c = '\x85' || c = '\xA0' || c = '\u1680' ||
  ('\u2000' ≤ c && c ≤ '\u200A') ||
  c = '\u2028' || c = '\u2029' || c = '\u202F' ||
  c = '\u205F' || c = '\u3000'

/-- Python `str.strip()`. -/
def pyStrip (s : List Char) : List Char :=
  ((s.dropWhile isPySpace).reverse.dropWhile isPySpace).reverse

/-- First occurrence of `sep` in a string: the part before it and the
part after it. -/
def findSplit (sep : List Char) : List Char → Option (List Char × List Char)
  | [] => if sep.isEmpty then some ([], []) else none
  | c :: cs =>
      if sep.isPrefixOf (c :: cs) then some ([], (c :: cs).drop sep.length)
      else
        match findSplit sep cs with
        | some (a, b) => some (c :: a, b)
        | none => none

/-- Fuel-driven worker for `splitSub`. -/
def splitSubGo (sep : List Char) : Nat → List Char → List (List Char)
  | 0, s => [s]
  | fuel + 1, s =>
      match findSplit sep s with
      | none => [s]
      | some (a, b) => a :: splitSubGo sep fuel b

/-- Python `str.split(sep)` for a non-empty separator. -/
def splitSub (sep s : List Char) : List (List Char) :=
  splitSubGo sep (s.length + 1) s

/-- Python truthiness of the `current_file` variable (`None` and the
empty string are falsy). -/
def strTruthy : Option (List Char) → Bool
  | none => false
  | some f => !f.isEmpty

/-- `if current_file: self._write_file(current_file, ...)`: the write
emitted for the current accumulation, when any. -/
def writeCur : Option (List Char) → List Char → List (List Char × List Char)
  | some f, acc => if f.isEmpty then [] else [(f, acc)]
  | none, _ => []

/-- The line loop of `_unpack_files`: `cur` is `current_file`, `acc`
the accumulated `current_content` (each content line is written back
with a trailing `"\n"`).  A begin marker flushes any open file, resets
the accumulator (only when a file was open — mirroring that the
`StringIO` reset sits inside the `if current_file:` branch) and parses
the new name as `line.split("--- BEGIN FILE:")[1].strip()`; an end
marker flushes and closes the open file; any other line is content. -/
def unpackGo : Option (List Char) → List Char → List (List Char) →
    List (List Char × List Char)
  | cur, acc, [] => writeCur cur acc
  | cur, acc, line :: rest =>
      if beginMark.isPrefixOf line then
        let newFile := pyStrip ((splitSub beginMark line).getD 1 [])
        writeCur cur acc ++
          unpackGo (some newFile) (if strTruthy cur then [] else acc) rest
      else if endMark.isPrefixOf line then
        if strTruthy cur then writeCur cur acc ++ unpackGo none [] rest
        else unpackGo cur acc rest
      else unpackGo cur (acc ++ line ++ ['\n']) rest

/-- `_unpack_files` (syncmanager.py): split the packed stream into
lines and replay the marker state machine, returning the sequence of
`_write_file` calls as (file name, content) pairs. -/
def _unpack_files (packed : List Char) : List (List Char × List Char) :=
  unpackGo none [] (pySplitlines packed)

/-! ## Reference resolution (`project_references_manager.py`) -/

/-- What `get_referenced_projects` observes about one mapped reference
path: the path string itself, whether the path exists as a regular
file, and whether its content parses as JSON. -/
structure RefPathInfo where
  path : String
  existsFile : Bool := true
  validJson : Bool := true
deriving DecidableEq, Repr

/-- `Path.is_absolute()` (POSIX). -/
def isAbsolutePath (p : String) : Bool :=
  pyStartsWith p "/"

/-- `_is_valid_project_path`: the path exists as a file, its name ends
with `.project.json`, and it parses as JSON. -/
def _is_valid_project_path (info : RefPathInfo) : Bool :=
  info.existsFile && pyEndsWith info.path ".project.json" && info.validJson

/-- The validation loop of `get_referenced_projects`
(project_references_manager.py lines 73–96): each declared reference
must have a mapping, an absolute path and a valid project file; the
first violation raises a `ConfigurationError` (modelled as `.error`
with the message). -/
def get_referenced_projects (references : List String)
    (reference_paths : List (String × RefPathInfo)) :
    Except String (List (String × RefPathInfo)) :=
  match references with
  | [] => .ok []
  | ref_id :: rest =>
      match reference_paths.lookup ref_id with
      | none =>
          .error ("Referenced project '" ++ ref_id ++
            "' has no path mapping in project_id.json")
      | some info =>
          if !isAbsolutePath info.path then
            .error ("Referenced project path must be absolute: " ++ info.path)
          else if !_is_valid_project_path info then
            .error ("Invalid referenced project path: " ++ info.path)
          else
            match get_referenced_projects rest reference_paths with
            | .ok resolved => .ok ((ref_id, info) :: resolved)
            | .error e => .error e

/-! ## Specification-side auxiliary definitions

Used to state the theorems below; not part of the embedding. -/

/-- All files of a directory listing and its subdirectories, with
their relative paths, file names and contents, split like `walkDC`
into the listing's own files and the files below subdirectories (no
pruning, no filtering): the reference enumeration the default
collection is compared against. -/
def allDC (pre : String) :
    List Entry → List (String × String × String) × List (String × String × String)
  | [] => ([], [])
  | .file n c :: rest =>
      let r := allDC pre rest
      ((joinRel pre n, n, c) :: r.1, r.2)
  | .dir d children :: rest =>
      let r := allDC pre rest
      let rc := allDC (joinRel pre d) children
      (r.1, (rc.1 ++ rc.2) ++ r.2)

/-- All files in a directory tree, in the collector's traversal
order. -/
def allFiles (tree : List Entry) : List (String × String × String) :=
  (allDC "" tree).1 ++ (allDC "" tree).2

/-- No directory anywhere in the tree bears one of the fixed pruned
VCS/tooling names. -/
def noExcludedDirs : List Entry → Bool
  | [] => true
  | .file _ _ :: rest => noExcludedDirs rest
  | .dir d children :: rest =>
      !excludeDirs.contains d && noExcludedDirs children && noExcludedDirs rest

/-- A local filesystem in which each relative path `p` of `files`
holds content `files p`, laid out under the root `R` (full path
`R/p`). -/
def mkDisk (R : String) (files : List (String × String)) :
    List (String × String) :=
  files.map fun pc => (joinPath R pc.1, pc.2)

/-- The `local_files` mapping a collection over `files` hands to
`sync`: each relative path mapped to the hash of its content. -/
def mkLocals (md5 : String → String) (files : List (String × String)) :
    List (String × FileVal) :=
  files.map fun pc => (pc.1, FileVal.hashOnly (md5 pc.2))

/-- Records of `files` bearing a given file name. -/
def namedRecords (files : List RemoteFile) (q : String) : List RemoteFile :=
  files.filter fun rf => rf.file_name == q

/-- Join lines back into a stream, each line followed by `"\n"` (the
shape the unpacker's accumulator produces). -/
def joinNL (ls : List (List Char)) : List Char :=
  (ls.map fun l => l ++ ['\n']).flatten

/-- A packable file name: no line-break characters, and no occurrence
of the begin marker in the remainder of its begin line (so the
`split("--- BEGIN FILE:")[1]` parse sees exactly one marker). -/
def okName (p : List Char) : Bool :=
  (p.all fun ch => !isLineBreak ch) &&
    !containsSub beginMark (' ' :: (p ++ tailMark))

/-- A packable content: `\n` line endings only — no other of Python's
line-break characters (`\r`, `\v`, `\f`, `\x1c`–`\x1e`, `\x85`,
`U+2028`, `U+2029`) — and no line that begins with one of the framing
markers. -/
def okContent (c : List Char) : Bool :=
  (c.all fun ch => ch = '\n' || !isLineBreak ch) &&
    ((pySplitlines (c ++ ['\n'])).all fun l =>
      !(beginMark.isPrefixOf l) && !(endMark.isPrefixOf l))

/-- The lines one packed file contributes to the packed stream. -/
def chunkLines (p c : List Char) : List (List Char) :=
  beginLine p :: (pySplitlines (c ++ ['\n']) ++ [endLine p])

/-- The Scenario A directory: `a.py`, `b.txt` and `c.py~`, 500 bytes
of ASCII text each. -/
def scenarioATree : List Entry :=
  [.file "a.py" (String.mk (List.replicate 500 'a')),
   .file "b.txt" (String.mk (List.replicate 500 'b')),
   .file "c.py~" (String.mk (List.replicate 500 'c'))]

/-- The Scenario A files configuration:
`includes=["*.py"]`, `excludes=[]`. -/
def scenarioAConfig : FilesConfig :=
  { includes := some ["*.py"] }

/-- The provider-state effect of processing one local file of the
local → remote pass against the run-start listing, assuming its disk
read succeeds: the branch structure of `update_existing_file` /
`upload_new_file` restricted to the provider state. -/
def step1 (md5 : String → String) (listing : List RemoteFile)
    (st : RemoteState) (pc : String × String) : RemoteState :=
  match findRemote listing pc.1 with
  | some rf =>
      if md5 pc.2 ≠ md5 rf.content then
        (st.deleteFile rf.uuid).uploadFile pc.1 pc.2
      else st
  | none => st.uploadFile pc.1 pc.2

/-- The provider state after the whole local → remote pass. -/
def run1St (md5 : String → String) (listing : List RemoteFile)
    (todo : List (String × String)) (st : RemoteState) : RemoteState :=
  todo.foldl (step1 md5 listing) st

/-- The deletion-candidate effect of processing one local file. -/
def stepCand (listing : List RemoteFile) (cd : List String)
    (pc : String × String) : List String :=
  if (findRemote listing pc.1).isSome then cd.erase pc.1 else cd

/-- The deletion-candidate set after the whole local → remote pass. -/
def run1Cand (listing : List RemoteFile) (todo : List (String × String))
    (cand : List String) : List String :=
  todo.foldl (stepCand listing) cand

/-!
# Theorems

One theorem per claim of the specification review, with supporting
lemmas.
-/

set_option maxRecDepth 8000 in
/-- **C1.** The claim states that collecting with
`includes=["*.py"]`, `excludes=[]` from a directory holding `a.py`,
`b.txt` (500 bytes each) and `c.py~` returns exactly `{a.py}`.  The
code disagrees: the push-root derivation takes `"*.py".split('/')[0]`
= `"*.py"` as a traversal root, `root_path/*.py` does not exist, the
only traversal root is skipped, and the collected set is empty — even
though `a.py` does match the include pattern and does pass every
admission check, as the remaining conjuncts show. -/
theorem c1_scenario_a_collects_nothing :
    get_local_files (fun s => s) {} scenarioATree scenarioAConfig "R" = [] ∧
    derivePushRootsMain ["*.py"] = ["*.py"] ∧
    matchFile ["*.py"] "a.py" = true ∧
    should_process_file {} (String.mk (List.replicate 500 'a'))
      "a.py" "a.py" none none none = true := by
  refine ⟨rfl, rfl, by simp [matchFile, matchPattern, pathSegments, splitChar, globMatch], ?_⟩
  rfl

/-- **C9.** A candidate file of exactly `max_file_size` bytes passes
the size check and — when the temp-suffix and text checks also pass
and no ignore specs apply — is admitted, for every configuration;
a file of `max_file_size + 1` bytes is rejected outright. -/
theorem c9_size_boundary (cm : ConfigMgr)
    (content bigContent filename relPath : String) :
    (byteLen content = cm.max_file_size →
      pyEndsWith filename "~" = false →
      is_text_file content = true →
      should_process_file cm content filename relPath none none none = true) ∧
    (byteLen bigContent = cm.max_file_size + 1 →
      should_process_file cm bigContent filename relPath none none none = false) := by
  constructor
  · intro hs hn ht
    simp [should_process_file, optMatch, hs, hn, ht]
  · intro hs
    simp [should_process_file, hs]

/-- Witness for C9 at a concrete configuration (`max_file_size = 3`)
and concrete contents of 3 and 4 bytes. -/
theorem c9_size_boundary_witness :
    should_process_file ⟨3, true, none⟩ "abc" "f.py" "f.py" none none none = true ∧
    should_process_file ⟨3, true, none⟩ "abcd" "f.py" "f.py" none none none = false := by
  have h := c9_size_boundary ⟨3, true, none⟩ "abc" "abcd" "f.py" "f.py"
  exact ⟨h.1 rfl rfl rfl, h.2 rfl⟩

/-- **C7.** A call that raises 403-class provider errors on every
attempt is tried 3 times with a 1-second sleep between attempts and
the final error is re-raised; a call whose first failure is not a
403-class provider error propagates immediately after 1 attempt with
no sleeps. -/
theorem c7_retry_policy {α : Type} (f g : Nat → Except String α)
    (e : Nat → String) (e0 : String) :
    ((∀ i, i < 3 → f i = .error (e i)) →
      (∀ i, i < 3 → contains403 (e i) = true) →
      retry_on_403 f = (.error (e 2), 3, [1, 1])) ∧
    (g 0 = .error e0 → contains403 e0 = false →
      retry_on_403 g = (.error e0, 1, [])) := by
  constructor
  · intro hf h403
    simp [retry_on_403, retryGo, hf 0 (by omega), hf 1 (by omega),
      hf 2 (by omega), h403 0 (by omega), h403 1 (by omega),
      h403 2 (by omega)]
  · intro hg h0
    simp [retry_on_403, retryGo, hg, h0]

/-- Witness for C7: a call always failing with a 403 message, and a
call failing with an unrelated message. -/
theorem c7_retry_policy_witness :
    retry_on_403 (fun _ => (.error "x 403 Forbidden" : Except String Nat)) =
      (.error "x 403 Forbidden", 3, [1, 1]) ∧
    retry_on_403 (fun _ => (.error "500 boom" : Except String Nat)) =
      (.error "500 boom", 1, []) := by
  have h := c7_retry_policy (fun _ => (.error "x 403 Forbidden" : Except String Nat))
    (fun _ => (.error "500 boom" : Except String Nat))
    (fun _ => "x 403 Forbidden") "500 boom"
  exact ⟨h.1 (fun i _ => rfl) (fun i _ => by decide), h.2 rfl (by decide)⟩

/-- **C5.** `update_existing_file` on a hash mismatch performs exactly
one delete (the remote record's uuid) followed by exactly one upload
of the freshly read local content, and removes the name from the
prune-candidate set; on a hash match it performs no provider call and
still removes the name. -/
theorem c5_update_or_skip (md5 : String → String)
    (disk : List (String × String)) (p lh root : String) (rf : RemoteFile)
    (cand synced : List String) (st : RemoteState) (c : String)
    (hread : diskRead disk (joinPath root p) = some c)
    (hnd : cand.Nodup) :
    (lh ≠ md5 rf.content →
      update_existing_file md5 disk p lh rf cand synced root st =
        .ok ([.delete rf.uuid, .upload p c],
          (st.deleteFile rf.uuid).uploadFile p c, cand.erase p,
          setAdd synced p) ∧
      p ∉ cand.erase p) ∧
    (lh = md5 rf.content →
      update_existing_file md5 disk p lh rf cand synced root st =
        .ok ([], st, cand.erase p, synced) ∧
      p ∉ cand.erase p) := by
  have hmem : p ∉ cand.erase p := by
    intro hc
    rcases (List.Nodup.mem_erase_iff hnd).mp hc with ⟨hne, _⟩
    exact hne rfl
  constructor
  · intro h
    exact ⟨by simp [update_existing_file, h, hread], hmem⟩
  · intro h
    exact ⟨by simp [update_existing_file, h], hmem⟩

/-- Witness for C5: a concrete remote record `x.txt` whose stored
content hashes differently from the local hash, and the same record
with matching hash. -/
theorem c5_update_or_skip_witness :
    (update_existing_file (fun s => s) [("R/x.txt", "new")] "x.txt" "new"
        ⟨"x.txt", 7, "old"⟩ ["x.txt", "y"] [] "R" ⟨[⟨"x.txt", 7, "old"⟩], 9⟩ =
      .ok ([.delete 7, .upload "x.txt" "new"],
        (RemoteState.deleteFile ⟨[⟨"x.txt", 7, "old"⟩], 9⟩ 7).uploadFile "x.txt" "new",
        (["x.txt", "y"].erase "x.txt"), setAdd [] "x.txt") ∧
      "x.txt" ∉ ["x.txt", "y"].erase "x.txt") ∧
    (update_existing_file (fun s => s) [("R/x.txt", "old")] "x.txt" "old"
        ⟨"x.txt", 7, "old"⟩ ["x.txt", "y"] [] "R" ⟨[⟨"x.txt", 7, "old"⟩], 9⟩ =
      .ok ([], ⟨[⟨"x.txt", 7, "old"⟩], 9⟩, (["x.txt", "y"].erase "x.txt"), []) ∧
      "x.txt" ∉ ["x.txt", "y"].erase "x.txt") := by
  constructor
  · exact (c5_update_or_skip (fun s => s) [("R/x.txt", "new")] "x.txt" "new" "R"
      ⟨"x.txt", 7, "old"⟩ ["x.txt", "y"] [] ⟨[⟨"x.txt", 7, "old"⟩], 9⟩ "new"
      rfl (by decide)).1 (by decide)
  · exact (c5_update_or_skip (fun s => s) [("R/x.txt", "old")] "x.txt" "old" "R"
      ⟨"x.txt", 7, "old"⟩ ["x.txt", "y"] [] ⟨[⟨"x.txt", 7, "old"⟩], 9⟩ "old"
      rfl (by decide)).2 rfl

/-! ### C6: empty includes collect nothing -/

theorem matchFile_nil (rp : String) : matchFile [] rp = false := rfl

theorem fileRecord_none_of_nil_include (P : WalkParams)
    (h : P.include_spec = []) (pre fn c : String) :
    fileRecord P pre fn c = none := by
  simp [fileRecord, h, matchFile]

theorem walkDC_nil_include (P : WalkParams) (h : P.include_spec = [])
    (pre : String) (entries : List Entry) :
    walkDC P pre entries = ([], []) := by
  induction pre, entries using walkDC.induct P with
  | case1 pre => simp [walkDC]
  | case2 pre fn c rest ih =>
      simp [walkDC, ih, fileRecord_none_of_nil_include P h]
  | case3 pre dname children rest hprune ih =>
      simp [walkDC, ih, hprune]
  | case4 pre dname children rest hprune ih ihc =>
      simp [walkDC, ih, ihc, hprune]

theorem walkDir_nil_include (P : WalkParams) (h : P.include_spec = [])
    (pre : String) (entries : List Entry) :
    walkDir P pre entries = [] := by
  simp [walkDir, walkDC_nil_include P h]

theorem walkRoot_nil_include (P : WalkParams) (h : P.include_spec = [])
    (tree : List Entry) (root : String) :
    walkRoot P tree root = [] := by
  unfold walkRoot
  cases hf : findEntry tree (((splitChar '/' root.toList).map fun l => String.mk l)) with
  | none => rfl
  | some e =>
      cases e with
      | file _ _ => rfl
      | dir _ children => exact walkDir_nil_include P h _ _

theorem foldl_dictInsert_of_all_nil (items : List (List (String × FileInfo)))
    (h : ∀ l ∈ items, l = []) :
    items.flatten.foldl dictInsert [] = [] := by
  rw [List.flatten_eq_nil_iff.mpr h]
  rfl

theorem collect_nil_include (md5 : String → String) (cm : ConfigMgr)
    (tree : List Entry) (fc : FilesConfig) (source : String)
    (es gi ci ce : Option (List String)) (ui : Bool)
    (pid : Option String) (rootName : String) :
    _collect_project_files md5 cm tree fc source [] es gi ci ce ui pid rootName = [] := by
  unfold _collect_project_files
  apply foldl_dictInsert_of_all_nil
  intro l hl
  split at hl <;> split at hl <;>
    first
      | (rcases List.mem_singleton.mp hl with rfl
         exact walkDir_nil_include _ rfl _ _)
      | (rcases List.mem_map.mp hl with ⟨r, _, rfl⟩
         exact walkRoot_nil_include _ rfl _ _)

/-- **C6.** A project whose configured `includes` list is the empty
list (and which declares no references) collects the empty file set,
for every directory tree, every exclude list, every push-root
configuration and every ignore-file setting. -/
theorem c6_empty_includes (md5 : String → String) (cm : ConfigMgr)
    (tree : List Entry) (fc : FilesConfig) (root : String)
    (hinc : fc.includes = some []) (href : fc.references = []) :
    get_local_files md5 cm tree fc root = [] := by
  unfold get_local_files getLocalMain
  simp [hinc, href, collect_nil_include]

/-- Witness for C6: a directory holding `a.py` yields the empty
collection under `includes=[]`. -/
theorem c6_empty_includes_witness :
    get_local_files (fun s => s) {} [.file "a.py" "print"]
      { includes := some [] } "R" = [] :=
  c6_empty_includes (fun s => s) {} [.file "a.py" "print"]
    { includes := some [] } "R" rfl rfl

/-! ### C4: main-project precedence in the merged set -/

theorem lookup_append_of_some {β : Type} (m l : List (String × β))
    (p : String) (v : β) (h : m.lookup p = some v) :
    (m ++ l).lookup p = some v := by
  induction m with
  | nil => simp at h
  | cons kv rest ih =>
      rw [List.cons_append]
      rw [List.lookup_cons] at h ⊢
      split at h <;> simp_all

theorem addRef_lookup_preserved (ref_files acc : List (String × FileInfo))
    (p : String) (fi : FileInfo) (h : acc.lookup p = some fi) :
    (ref_files.foldl
      (fun a pfi => if (a.lookup pfi.1).isSome then a else a ++ [pfi])
      acc).lookup p = some fi := by
  induction ref_files generalizing acc with
  | nil => exact h
  | cons kv rest ih =>
      rw [List.foldl_cons]
      apply ih
      by_cases hk : (acc.lookup kv.1).isSome
      · simpa [hk]
      · simp only [hk, if_false, Bool.false_eq_true]
        exact lookup_append_of_some _ _ _ _ h

theorem mergeRefs_lookup_preserved (md5 : String → String) (cm : ConfigMgr)
    (rp : List (String × RefProject)) (ui : Bool) (refs : List String)
    (acc : List (String × FileInfo)) (p : String) (fi : FileInfo)
    (h : acc.lookup p = some fi) :
    (refs.foldl
      (fun all_files ref_id =>
        (_collect_referenced_files md5 cm ref_id rp ui).foldl
          (fun a pfi => if (a.lookup pfi.1).isSome then a else a ++ [pfi])
          all_files)
      acc).lookup p = some fi := by
  induction refs generalizing acc with
  | nil => exact h
  | cons r rest ih => exact ih _ (addRef_lookup_preserved _ _ _ _ h)

/-- **C4.** A relative path present in the main project's collected
files — in particular one also present in some referenced project's
collected files — is mapped by the merged collection to the main
project's record: referenced-project entries never overwrite an
existing entry. -/
theorem c4_main_precedence (md5 : String → String) (cm : ConfigMgr)
    (tree : List Entry) (fc : FilesConfig) (root p : String) (fi : FileInfo)
    (hmain : (getLocalMain md5 cm tree fc root).lookup p = some fi)
    (href : ∃ rid ∈ fc.references, ∃ rp, cm.reference_paths = some rp ∧
      ((_collect_referenced_files md5 cm rid rp fc.use_ignore_files).lookup p).isSome) :
    (get_local_files md5 cm tree fc root).lookup p = some fi := by
  obtain ⟨rid, hrid, rp, hrp, -⟩ := href
  have hne : fc.references.isEmpty = false := by
    cases hr : fc.references with
    | nil => rw [hr] at hrid; cases hrid
    | cons a l => rfl
  unfold get_local_files
  simp only [hne, hrp, Bool.false_eq_true, if_false]
  exact mergeRefs_lookup_preserved md5 cm rp fc.use_ignore_files
    fc.references _ p fi hmain

/-- Witness for C4: a main project and a referenced project both
holding `src/a.txt`; the merged set keeps the main record. -/
theorem c4_main_precedence_witness :
    (get_local_files (fun s => s)
        { reference_paths := some [("r1",
            ⟨some { includes := some ["*"], push_roots := ["src"] },
             [.dir "src" [.file "a.txt" "y"]], "RR"⟩)] }
        [.dir "src" [.file "a.txt" "x"]]
        { includes := some ["*"], references := ["r1"] }
        "R").lookup "src/a.txt" =
      some ⟨"src/a.txt", "x", FileSource.MAIN, none, "R", true⟩ := by
  apply c4_main_precedence
  · simp [getLocalMain, _collect_project_files, derivePushRootsMain,
      walkDir, walkDC, walkRoot, fileRecord, matchFile, matchPattern,
      pathSegments, splitChar, globMatch, joinRel, should_process_file,
      byteLen, charBytes, is_text_file, takeBytes, optMatch, process_file,
      load_gitignore, load_claudeignore, ignoreLines, pruneDir,
      should_skip_directory, excludeDirs, dictInsert, FileSource.MAIN,
      findEntry, Entry.name, pyEndsWith, pyStartsWith, List.isPrefixOf,
      List.isSuffixOf]
  · refine ⟨"r1", by simp, _, rfl, ?_⟩
    simp [_collect_referenced_files, derivePushRootsRef, walkDir,
      walkDC, walkRoot, fileRecord, matchFile, matchPattern, pathSegments,
      splitChar, globMatch, joinRel, should_process_file, byteLen,
      charBytes, is_text_file, takeBytes, optMatch, process_file,
      load_gitignore, load_claudeignore, ignoreLines, pruneDir,
      should_skip_directory, excludeDirs, dictInsert, FileSource.REFERENCED,
      findEntry, Entry.name, pyEndsWith, pyStartsWith, List.isPrefixOf,
      List.isSuffixOf]

/-! ### C8: a reference without a path mapping -/

theorem isPrefixOf_self_append (l t : List Char) :
    l.isPrefixOf (l ++ t) = true := by
  induction l with
  | nil => simp [List.isPrefixOf]
  | cons c cs ih => simp [List.isPrefixOf, ih]

theorem containsSub_cons (needle : List Char) (c : Char) (s : List Char)
    (h : containsSub needle s = true) :
    containsSub needle (c :: s) = true := by
  simp [containsSub, h]

theorem containsSub_here (needle t : List Char) :
    containsSub needle (needle ++ t) = true := by
  cases needle with
  | nil =>
      cases t with
      | nil => simp [containsSub]
      | cons c rest => simp [containsSub, List.isPrefixOf]
  | cons n ns =>
      have := isPrefixOf_self_append (n :: ns) t
      simp only [List.cons_append, containsSub] at this ⊢
      simp [this]

theorem containsSub_around (needle a b : List Char) :
    containsSub needle (a ++ (needle ++ b)) = true := by
  induction a with
  | nil => exact containsSub_here needle b
  | cons c a' ih => exact containsSub_cons _ _ _ ih

theorem mergeRefs_skip_empty (md5 : String → String) (cm : ConfigMgr)
    (rp : List (String × RefProject)) (ui : Bool) (ref1 : String)
    (hcol : _collect_referenced_files md5 cm ref1 rp ui = [])
    (refs : List String) (acc : List (String × FileInfo)) :
    refs.foldl
      (fun all_files ref_id =>
        (_collect_referenced_files md5 cm ref_id rp ui).foldl
          (fun a pfi => if (a.lookup pfi.1).isSome then a else a ++ [pfi])
          all_files)
      acc =
    (refs.filter fun r => r ≠ ref1).foldl
      (fun all_files ref_id =>
        (_collect_referenced_files md5 cm ref_id rp ui).foldl
          (fun a pfi => if (a.lookup pfi.1).isSome then a else a ++ [pfi])
          all_files)
      acc := by
  induction refs generalizing acc with
  | nil => rfl
  | cons r rest ih =>
      by_cases hr : r = ref1
      · subst hr
        rw [List.foldl_cons, hcol]
        simpa using ih acc
      · have hkeep : (r :: rest).filter (fun x => x ≠ ref1) =
            r :: rest.filter (fun x => x ≠ ref1) := by
          simp [List.filter_cons, hr]
        rw [hkeep, List.foldl_cons, List.foldl_cons, ih]

theorem get_local_files_merge_form (md5 : String → String) (cm : ConfigMgr)
    (tree : List Entry) (fc : FilesConfig) (root : String)
    (rp : List (String × RefProject)) (hrp : cm.reference_paths = some rp) :
    get_local_files md5 cm tree fc root =
      fc.references.foldl
        (fun all_files ref_id =>
          (_collect_referenced_files md5 cm ref_id rp fc.use_ignore_files).foldl
            (fun a pfi => if (a.lookup pfi.1).isSome then a else a ++ [pfi])
            all_files)
        (getLocalMain md5 cm tree fc root) := by
  unfold get_local_files
  by_cases hre : fc.references = []
  · rw [hre]
    rfl
  · have hre' : fc.references.isEmpty = false := by
      cases h : fc.references with
      | nil => exact absurd h hre
      | cons a l => rfl
    simp only [hre', Bool.false_eq_true, if_false, hrp]

/-- **C8.** When a declared reference `ref1` has no entry in the
reference-path map, `get_referenced_projects` (every earlier declared
reference being validly mapped) raises a `ConfigurationError` whose
message names `ref1`; file collection instead skips `ref1` — the
merged result is the same as if `ref1` were not declared at all, so
the main project's files (plus any other valid references) are
returned without raising. -/
theorem c8_missing_reference (pre post : List String) (ref1 : String)
    (paths : List (String × RefPathInfo)) (md5 : String → String)
    (cm : ConfigMgr) (tree : List Entry) (fc : FilesConfig) (root : String)
    (rp : List (String × RefProject))
    (hpre : ∀ r ∈ pre, ∃ info, paths.lookup r = some info ∧
      isAbsolutePath info.path = true ∧ _is_valid_project_path info = true)
    (h1 : paths.lookup ref1 = none)
    (hrp : cm.reference_paths = some rp) (h2 : rp.lookup ref1 = none) :
    (∃ msg, get_referenced_projects (pre ++ ref1 :: post) paths = .error msg ∧
      containsSub ref1.toList msg.toList = true) ∧
    get_local_files md5 cm tree fc root =
      get_local_files md5 cm tree
        { fc with references := fc.references.filter fun r => r ≠ ref1 }
        root := by
  constructor
  · induction pre with
    | nil =>
        refine ⟨"Referenced project '" ++ ref1 ++
          "' has no path mapping in project_id.json", ?_, ?_⟩
        · simp [get_referenced_projects, h1]
        · show containsSub ref1.toList
            (("Referenced project '" ++ ref1) ++
              "' has no path mapping in project_id.json").toList = true
          have : (("Referenced project '" ++ ref1) ++
              "' has no path mapping in project_id.json").toList =
              "Referenced project '".toList ++ (ref1.toList ++
                "' has no path mapping in project_id.json".toList) := by
            simp
          rw [this]
          exact containsSub_around _ _ _
    | cons r rest ih =>
        obtain ⟨info, hinfo, habs, hvalid⟩ := hpre r (by simp)
        obtain ⟨msg, hmsg, hsub⟩ := ih (fun q hq => hpre q (by simp [hq]))
        refine ⟨msg, ?_, hsub⟩
        rw [List.cons_append]
        unfold get_referenced_projects
        rw [hinfo]
        simp only [habs, hvalid, Bool.not_true, Bool.false_eq_true,
          if_false]
        rw [hmsg]
  · have hcol : _collect_referenced_files md5 cm ref1 rp
        fc.use_ignore_files = [] := by
      unfold _collect_referenced_files
      rw [h2]
    rw [get_local_files_merge_form md5 cm tree fc root rp hrp,
      get_local_files_merge_form md5 cm tree
        { fc with references := fc.references.filter fun r => r ≠ ref1 }
        root rp hrp]
    exact mergeRefs_skip_empty md5 cm rp fc.use_ignore_files ref1 hcol
      fc.references _

/-- Witness for C8: one validly mapped reference `ok` followed by the
unmapped `ref1`. -/
theorem c8_missing_reference_witness :
    (∃ msg, get_referenced_projects (["ok"] ++ "ref1" :: [])
        [("ok", ⟨"/a/.claudesync/x.project.json", true, true⟩)] =
          .error msg ∧
      containsSub "ref1".toList msg.toList = true) ∧
    get_local_files (fun s => s) { reference_paths := some [] }
        [.file "a.txt" "z"]
        { includes := some ["*"], references := ["ref1"] } "R" =
      get_local_files (fun s => s) { reference_paths := some [] }
        [.file "a.txt" "z"]
        { ({ includes := some ["*"], references := ["ref1"] } : FilesConfig) with
          references :=
            ({ includes := some ["*"], references := ["ref1"] } :
              FilesConfig).references.filter fun r => r ≠ "ref1" } "R" := by
  have h := c8_missing_reference ["ok"] [] "ref1"
    [("ok", ⟨"/a/.claudesync/x.project.json", true, true⟩)]
    (fun s => s) { reference_paths := some [] } [.file "a.txt" "z"]
    { includes := some ["*"], references := ["ref1"] } "R" []
    (by
      intro r hr
      simp only [List.mem_singleton] at hr
      subst hr
      exact ⟨⟨"/a/.claudesync/x.project.json", true, true⟩, rfl,
        by decide, by decide⟩)
    rfl rfl rfl
  exact h

/-! ### C10: an absent includes key defaults to collecting
everything -/

theorem splitChar_ne_nil (sep : Char) (s : List Char) :
    splitChar sep s ≠ [] := by
  induction s with
  | nil => simp [splitChar]
  | cons c rest ih =>
      by_cases hc : c = sep
      · simp [splitChar, hc]
      · simp only [splitChar, hc, if_false]
        cases h : splitChar sep rest with
        | nil => simp
        | cons l ls => simp

theorem mem_splitChar_not_mem (sep : Char) (s : List Char) :
    ∀ l ∈ splitChar sep s, sep ∉ l := by
  induction s with
  | nil =>
      intro l hl
      simp [splitChar] at hl
      simp [hl]
  | cons c rest ih =>
      intro l hl
      by_cases hc : c = sep
      · simp only [splitChar, hc, if_true, List.mem_cons] at hl
        rcases hl with rfl | hl
        · simp
        · exact ih l hl
      · simp only [splitChar, hc, if_false] at hl
        cases h : splitChar sep rest with
        | nil => exact absurd h (splitChar_ne_nil sep rest)
        | cons t ts =>
            rw [h] at hl
            rcases List.mem_cons.mp hl with rfl | hl
            · intro hmem
              rcases List.mem_cons.mp hmem with rfl | hmem
              · exact hc rfl
              · exact ih t (h ▸ List.mem_cons_self t ts) hmem
            · exact ih l (h ▸ List.mem_cons_of_mem t hl)

theorem globMatch_star (s : List Char) (h : '/' ∉ s) :
    globMatch ['*'] s = true := by
  induction s with
  | nil => simp [globMatch]
  | cons c cs ih =>
      have hc : c ≠ '/' := fun hcc => h (hcc ▸ List.mem_cons_self c cs)
      have hcs : '/' ∉ cs := fun hmem => h (List.mem_cons_of_mem c hmem)
      simp [globMatch, ih hcs, hc]

theorem matchFile_star (rel : String) : matchFile ["*"] rel = true := by
  simp only [matchFile, List.any_cons, List.any_nil, Bool.or_false]
  unfold matchPattern
  simp only [show ("*".toList.contains '/') = false from rfl,
    Bool.false_eq_true, if_false]
  rw [List.any_eq_true]
  cases h : pathSegments rel with
  | nil => exact absurd h (splitChar_ne_nil '/' rel.toList)
  | cons a l =>
      refine ⟨a, by simp [h], ?_⟩
      have ha : a ∈ pathSegments rel := by
        rw [h]
        exact List.mem_cons_self a l
      exact globMatch_star a (mem_splitChar_not_mem '/' rel.toList a ha)

theorem lookup_map_replace (m : List (String × FileInfo))
    (kv : String × FileInfo) (k : String) (hk : k ≠ kv.1) :
    (m.map fun p => if p.1 = kv.1 then kv else p).lookup k = m.lookup k := by
  obtain ⟨k1, v1⟩ := kv
  simp only at hk
  induction m with
  | nil => rfl
  | cons p rest ih =>
      obtain ⟨pk, pv⟩ := p
      by_cases hp : pk = k1
      · have h1 : (k == k1) = false := by simp [hk]
        have h2 : (k == pk) = false := by rw [hp]; exact h1
        simp only [List.map_cons, if_pos (show ((pk, pv) : String × FileInfo).1 = k1 from hp),
          List.lookup_cons, h1, h2]
        exact ih
      · simp only [List.map_cons,
          if_neg (show ¬((pk, pv) : String × FileInfo).1 = k1 from hp),
          List.lookup_cons]
        cases hkp : (k == pk) with
        | true => rfl
        | false => exact ih

theorem lookup_map_replace_self (m : List (String × FileInfo))
    (kv : String × FileInfo) (hpresent : (m.lookup kv.1).isSome = true) :
    (m.map fun p => if p.1 = kv.1 then kv else p).lookup kv.1 =
      some kv.2 := by
  obtain ⟨k1, v1⟩ := kv
  simp only at hpresent ⊢
  induction m with
  | nil => simp [List.lookup] at hpresent
  | cons p rest ih =>
      obtain ⟨pk, pv⟩ := p
      by_cases hp : pk = k1
      · simp only [List.map_cons,
          if_pos (show ((pk, pv) : String × FileInfo).1 = k1 from hp),
          List.lookup_cons]
        simp
      · have h2 : (k1 == pk) = false := by simp [Ne.symm hp]
        simp only [List.map_cons,
          if_neg (show ¬((pk, pv) : String × FileInfo).1 = k1 from hp),
          List.lookup_cons]
        rw [List.lookup_cons] at hpresent
        simp only [h2] at hpresent ⊢
        exact ih hpresent

theorem dictInsert_lookup (m : List (String × FileInfo))
    (kv : String × FileInfo) (k : String) :
    (dictInsert m kv).lookup k =
      if k = kv.1 then some kv.2 else m.lookup k := by
  unfold dictInsert
  by_cases hpresent : (m.lookup kv.1).isSome
  · simp only [hpresent, if_true]
    by_cases hk : k = kv.1
    · subst hk
      rw [lookup_map_replace_self m kv hpresent]
      simp
    · rw [lookup_map_replace m kv k hk, if_neg hk]
  · simp only [hpresent, Bool.false_eq_true, if_false]
    rw [List.lookup_append]
    by_cases hk : k = kv.1
    · subst hk
      rw [Option.not_isSome_iff_eq_none] at hpresent
      obtain ⟨k1, v1⟩ := kv
      simp only at hpresent ⊢
      simp [hpresent, List.lookup_cons]
    · cases hm : m.lookup k with
      | some v => simp [hk]
      | none =>
          obtain ⟨k1, v1⟩ := kv
          simp only at hk ⊢
          simp [List.lookup_cons, show (k == k1) = false by simp [hk], hk]

theorem foldl_dictInsert_lookup_mem (l : List (String × FileInfo))
    (k : String) (v : FileInfo) :
    ∀ acc, (l.foldl dictInsert acc).lookup k = some v →
      acc.lookup k = some v ∨ (k, v) ∈ l := by
  induction l with
  | nil => exact fun acc h => Or.inl h
  | cons kv rest ih =>
      intro acc h
      rcases ih _ h with hacc | hmem
      · rw [dictInsert_lookup] at hacc
        by_cases hk : k = kv.1
        · rw [if_pos hk] at hacc
          right
          have hkv : (k, v) = kv := by
            rw [hk, ← Option.some.inj hacc]
          rw [hkv]
          exact List.mem_cons_self kv rest
        · rw [if_neg hk] at hacc
          exact Or.inl hacc
      · exact Or.inr (List.mem_cons_of_mem _ hmem)

theorem foldl_dictInsert_lookup_isSome (l : List (String × FileInfo))
    (k : String) :
    ∀ acc, ((acc.lookup k).isSome = true ∨ ∃ v, (k, v) ∈ l) →
      ((l.foldl dictInsert acc).lookup k).isSome = true := by
  induction l with
  | nil =>
      intro acc h
      rcases h with h | ⟨v, hv⟩
      · exact h
      · cases hv
  | cons kv rest ih =>
      intro acc h
      rw [List.foldl_cons]
      apply ih
      rcases h with h | ⟨v, hv⟩
      · left
        rw [dictInsert_lookup]
        by_cases hk : k = kv.1
        · simp [hk]
        · simpa [hk] using h
      · rcases List.mem_cons.mp hv with heq | hmem
        · left
          rw [dictInsert_lookup]
          have : k = kv.1 := by rw [← heq]
          simp [this]
        · exact Or.inr ⟨v, hmem⟩

theorem fileRecord_default (P : WalkParams) (hStar : P.include_spec = ["*"])
    (hEx : P.exclude_spec = none) (hGit : P.gitignore = none)
    (hClaude : P.claudeignore = none) (hCat : P.category_excludes = none)
    (pre fn c : String) :
    fileRecord P pre fn c =
      if should_process_file P.cm c fn (joinRel pre fn) none none none then
        some (joinRel pre fn,
          ⟨joinRel pre fn, P.md5 c, P.source, P.project_id, P.rootName, true⟩)
      else none := by
  unfold fileRecord
  have h1 : (if P.use_ignore_files then P.gitignore else none) = none := by
    rw [hGit, ite_self]
  have h2 : (if P.use_ignore_files then P.claudeignore else none) = none := by
    rw [hClaude, ite_self]
  rw [hStar, hEx, hCat, h1, h2]
  simp only [matchFile_star, optMatch, Bool.not_false, Bool.and_true,
    Bool.true_and]
  by_cases hs : should_process_file P.cm c fn (joinRel pre fn) none none none
  · simp [hs, process_file]
  · simp [hs]

theorem pruneDir_default (P : WalkParams) (hGit : P.gitignore = none)
    (hClaude : P.claudeignore = none) (hCat : P.category_excludes = none)
    (pre d : String) :
    pruneDir P pre d = excludeDirs.contains d := by
  unfold pruneDir should_skip_directory
  rw [hGit, hClaude, hCat]
  simp [optMatch]

theorem walkDC_default (P : WalkParams) (hStar : P.include_spec = ["*"])
    (hEx : P.exclude_spec = none) (hGit : P.gitignore = none)
    (hClaude : P.claudeignore = none) (hCat : P.category_excludes = none)
    (pre : String) (entries : List Entry) :
    noExcludedDirs entries = true →
    ∀ kv : String × FileInfo,
      (kv ∈ (walkDC P pre entries).1 ↔
        ∃ fname c, (kv.1, fname, c) ∈ (allDC pre entries).1 ∧
          should_process_file P.cm c fname kv.1 none none none = true ∧
          kv.2 = ⟨kv.1, P.md5 c, P.source, P.project_id, P.rootName, true⟩) ∧
      (kv ∈ (walkDC P pre entries).2 ↔
        ∃ fname c, (kv.1, fname, c) ∈ (allDC pre entries).2 ∧
          should_process_file P.cm c fname kv.1 none none none = true ∧
          kv.2 = ⟨kv.1, P.md5 c, P.source, P.project_id, P.rootName, true⟩) := by
  induction pre, entries using walkDC.induct P with
  | case1 pre =>
      intro _ kv
      simp [walkDC, allDC]
  | case2 pre fn c rest ih =>
      intro hnoex kv
      have hrest := ih (by simpa [noExcludedDirs] using hnoex) kv
      obtain ⟨kvp, kvv⟩ := kv
      rw [walkDC, allDC]
      rw [fileRecord_default P hStar hEx hGit hClaude hCat]
      refine ⟨?_, by simpa using hrest.2⟩
      by_cases hs : should_process_file P.cm c fn (joinRel pre fn)
          none none none
      · simp only [if_pos hs]
        simp only [List.mem_cons, hrest.1, Prod.mk.injEq]
        constructor
        · rintro (⟨h1, h2⟩ | ⟨f, c', hm, hsp, hv⟩)
          · exact ⟨fn, c, Or.inl ⟨h1, rfl, rfl⟩, by rw [h1]; exact hs,
              by rw [h1]; exact h2⟩
          · exact ⟨f, c', Or.inr hm, hsp, hv⟩
        · rintro ⟨f, c', (⟨h1, rfl, rfl⟩ | hm), hsp, hv⟩
          · exact Or.inl ⟨h1, by rw [← h1]; exact hv⟩
          · exact Or.inr ⟨f, c', hm, hsp, hv⟩
      · simp only [if_neg hs]
        simp only [List.mem_cons, hrest.1, Prod.mk.injEq]
        constructor
        · rintro ⟨f, c', hm, hsp, hv⟩
          exact ⟨f, c', Or.inr hm, hsp, hv⟩
        · rintro ⟨f, c', (⟨h1, rfl, rfl⟩ | hm), hsp, hv⟩
          · exact absurd (h1 ▸ hsp) (by simpa using hs)
          · exact ⟨f, c', hm, hsp, hv⟩
  | case3 pre dname children rest hprune ih =>
      intro hnoex kv
      rw [pruneDir_default P hGit hClaude hCat] at hprune
      simp only [noExcludedDirs, Bool.and_eq_true, Bool.not_eq_true'] at hnoex
      rw [hnoex.1.1] at hprune
      cases hprune
  | case4 pre dname children rest hprune ihr ihc =>
      intro hnoex kv
      simp only [noExcludedDirs, Bool.and_eq_true, Bool.not_eq_true'] at hnoex
      obtain ⟨⟨hcontain, hchild⟩, hrestx⟩ := hnoex
      have ihr' := ihr hrestx kv
      have ihc' := ihc hchild kv
      rw [walkDC, allDC]
      simp only [pruneDir_default P hGit hClaude hCat, hcontain,
        Bool.false_eq_true, if_false]
      refine ⟨by simpa using ihr'.1, ?_⟩
      simp only [List.mem_append, ihr'.2, ihc'.1, ihc'.2]
      constructor
      · rintro ((⟨f, c', hm, hsp, hv⟩ | ⟨f, c', hm, hsp, hv⟩) |
          ⟨f, c', hm, hsp, hv⟩)
        · exact ⟨f, c', Or.inl (Or.inl hm), hsp, hv⟩
        · exact ⟨f, c', Or.inl (Or.inr hm), hsp, hv⟩
        · exact ⟨f, c', Or.inr hm, hsp, hv⟩
      · rintro ⟨f, c', (hm | hm) | hm, hsp, hv⟩
        · exact Or.inl (Or.inl ⟨f, c', hm, hsp, hv⟩)
        · exact Or.inl (Or.inr ⟨f, c', hm, hsp, hv⟩)
        · exact Or.inr ⟨f, c', hm, hsp, hv⟩

theorem getD_includes_none : (none : Option (List String)).getD ["*"] = ["*"] := rfl

/-- **C10.** A files configuration with no `includes` key at all (as
opposed to an empty list) defaults the include patterns to `["*"]`
and collects exactly the files under the project root that pass the
admission checks: every file of the tree passing
`should_process_file` appears in the collection, and everything
collected is such a file, carrying the main-project record.  (The
tree is assumed to contain no directory bearing one of the fixed
pruned VCS/tooling names and no ignore files at the root.) -/
theorem c10_absent_includes (md5 : String → String) (cm : ConfigMgr)
    (tree : List Entry) (fc : FilesConfig) (root : String)
    (hinc : fc.includes = none) (hexc : fc.excludes = [])
    (hpush : fc.push_roots = []) (href : fc.references = [])
    (hgit : load_gitignore tree = none)
    (hclaude : load_claudeignore tree = none)
    (hnoex : noExcludedDirs tree = true) :
    (∀ rel fname c, (rel, fname, c) ∈ allFiles tree →
      should_process_file cm c fname rel none none none = true →
      ∃ fi, (get_local_files md5 cm tree fc root).lookup rel = some fi) ∧
    (∀ rel fi, (get_local_files md5 cm tree fc root).lookup rel = some fi →
      ∃ fname c, (rel, fname, c) ∈ allFiles tree ∧
        should_process_file cm c fname rel none none none = true ∧
        fi = ⟨rel, md5 c, FileSource.MAIN, none, root, true⟩) := by
  have hform : get_local_files md5 cm tree fc root =
      (walkDir ⟨md5, cm, ["*"], none, none, none, none,
        fc.use_ignore_files, FileSource.MAIN, none, root⟩ "" tree).foldl
        dictInsert [] := by
    unfold get_local_files getLocalMain _collect_project_files
    simp only [href, hinc, hexc, hpush, hgit, hclaude, ite_self,
      getD_includes_none,
      show derivePushRootsMain ["*"] = [] from rfl]
    simp
  have hw := walkDC_default
    ⟨md5, cm, ["*"], none, none, none, none,
      fc.use_ignore_files, FileSource.MAIN, none, root⟩
    rfl rfl rfl rfl rfl "" tree hnoex
  rw [hform]
  constructor
  · intro rel fname c hmem hsp
    have hrec : ((rel,
        (⟨rel, md5 c, FileSource.MAIN, none, root, true⟩ : FileInfo))) ∈
        walkDir ⟨md5, cm, ["*"], none, none, none, none,
          fc.use_ignore_files, FileSource.MAIN, none, root⟩ "" tree := by
      unfold walkDir
      rcases List.mem_append.mp hmem with h1 | h2
      · exact List.mem_append.mpr
          (Or.inl ((hw _).1.mpr ⟨fname, c, h1, hsp, rfl⟩))
      · exact List.mem_append.mpr
          (Or.inr ((hw _).2.mpr ⟨fname, c, h2, hsp, rfl⟩))
    have hsome := foldl_dictInsert_lookup_isSome _ rel []
      (Or.inr ⟨_, hrec⟩)
    rcases Option.isSome_iff_exists.mp hsome with ⟨fi, hfi⟩
    exact ⟨fi, hfi⟩
  · intro rel fi hlookup
    rcases foldl_dictInsert_lookup_mem _ rel fi [] hlookup with habs | hmem'
    · simp [List.lookup] at habs
    · unfold walkDir at hmem'
      rcases List.mem_append.mp hmem' with h1 | h2
      · obtain ⟨f, c, hm, hsp, hv⟩ := ((hw (rel, fi)).1).mp h1
        exact ⟨f, c, List.mem_append.mpr (Or.inl hm), hsp, hv⟩
      · obtain ⟨f, c, hm, hsp, hv⟩ := ((hw (rel, fi)).2).mp h2
        exact ⟨f, c, List.mem_append.mpr (Or.inr hm), hsp, hv⟩

/-- Witness for C10: with no `includes` key, a root holding `a.txt`
collects it. -/
theorem c10_absent_includes_witness :
    ((get_local_files (fun s => s) {} [.file "a.txt" "hello"] {}
      "R").lookup "a.txt").isSome = true := by
  obtain ⟨fi, hfi⟩ :=
    (c10_absent_includes (fun s => s) {} [.file "a.txt" "hello"] {} "R"
      rfl rfl rfl rfl rfl rfl (by simp [noExcludedDirs])).1
      "a.txt" "a.txt" "hello" (by simp [allFiles, allDC, joinRel])
      (by decide)
  rw [hfi]
  rfl

/-! ### C3: the compressed-mode pack/unpack round trip -/

theorem pySplitlines_cons_other (c : Char) (r : List Char)
    (h : isLineBreak c = false) :
    pySplitlines (c :: r) =
      (match pySplitlines r with
       | [] => [[c]]
       | l :: ls => (c :: l) :: ls) := by
  simp only [isLineBreak, Bool.or_eq_false_iff,
    decide_eq_false_iff_not] at h
  obtain ⟨⟨⟨⟨⟨⟨⟨⟨⟨h1, h2⟩, h3⟩, h4⟩, h5⟩, h6⟩, h7⟩, h8⟩, h9⟩, h10⟩ := h
  simp [pySplitlines, h1, h2, h3, h4, h5, h6, h7, h8, h9, h10]

theorem joinNL_splitlines (c : List Char)
    (h : ∀ ch ∈ c, ch = '\n' ∨ isLineBreak ch = false) :
    joinNL (pySplitlines (c ++ ['\n'])) = c ++ ['\n'] := by
  induction c with
  | nil => rfl
  | cons ch c' ih =>
      have h' : ∀ x ∈ c', x = '\n' ∨ isLineBreak x = false :=
        fun x hm => h x (List.mem_cons_of_mem ch hm)
      rcases h ch (List.mem_cons_self ch c') with hn | hch
      · subst hn
        show joinNL (pySplitlines ('\n' :: (c' ++ ['\n']))) = _
        rw [show pySplitlines ('\n' :: (c' ++ ['\n'])) =
          [] :: pySplitlines (c' ++ ['\n']) from rfl]
        simp only [joinNL, List.map_cons, List.flatten_cons, List.nil_append]
        rw [show (List.map (fun l => l ++ ['\n'])
          (pySplitlines (c' ++ ['\n']))).flatten =
          joinNL (pySplitlines (c' ++ ['\n'])) from rfl, ih h']
        rfl
      · rw [List.cons_append, pySplitlines_cons_other ch _ hch]
        cases hsl : pySplitlines (c' ++ ['\n']) with
        | nil =>
            rw [hsl] at ih
            have := ih h'
            simp [joinNL] at this
        | cons l ls =>
            rw [hsl] at ih
            calc joinNL ((ch :: l) :: ls)
                = ch :: joinNL (l :: ls) := by simp [joinNL]
              _ = ch :: (c' ++ ['\n']) := by rw [ih h']
              _ = (ch :: c') ++ ['\n'] := by simp

theorem splitlines_ne_nil (c : List Char)
    (h : ∀ ch ∈ c, ch = '\n' ∨ isLineBreak ch = false) :
    pySplitlines (c ++ ['\n']) ≠ [] := by
  intro hnil
  have := joinNL_splitlines c h
  rw [hnil] at this
  simp [joinNL] at this

theorem splitlines_append (a b : List Char)
    (h : ∀ ch ∈ a, ch = '\n' ∨ isLineBreak ch = false) :
    pySplitlines (a ++ '\n' :: b) =
      pySplitlines (a ++ ['\n']) ++ pySplitlines b := by
  induction a with
  | nil => rfl
  | cons ch a' ih =>
      have h' : ∀ x ∈ a', x = '\n' ∨ isLineBreak x = false :=
        fun x hm => h x (List.mem_cons_of_mem ch hm)
      rcases h ch (List.mem_cons_self ch a') with hn | hch
      · subst hn
        rw [List.cons_append, List.cons_append]
        rw [show pySplitlines ('\n' :: (a' ++ '\n' :: b)) =
          [] :: pySplitlines (a' ++ '\n' :: b) from rfl]
        rw [show pySplitlines ('\n' :: (a' ++ ['\n'])) =
          [] :: pySplitlines (a' ++ ['\n']) from rfl]
        rw [ih h']
        rfl
      · rw [List.cons_append, List.cons_append,
          pySplitlines_cons_other ch _ hch,
          pySplitlines_cons_other ch _ hch, ih h']
        cases hsl : pySplitlines (a' ++ ['\n']) with
        | nil => exact absurd hsl (splitlines_ne_nil a' h')
        | cons l ls => rfl

theorem splitlines_single (l : List Char)
    (h : ∀ ch ∈ l, isLineBreak ch = false) :
    pySplitlines (l ++ ['\n']) = [l] := by
  induction l with
  | nil => rfl
  | cons ch l' ih =>
      have h' : ∀ x ∈ l', isLineBreak x = false :=
        fun x hm => h x (List.mem_cons_of_mem ch hm)
      rw [List.cons_append,
        pySplitlines_cons_other ch _ (h ch (List.mem_cons_self ch l')),
        ih h']

theorem beginMark_chars :
    beginMark = ['-', '-', '-', ' ', 'B', 'E', 'G', 'I', 'N', ' ',
      'F', 'I', 'L', 'E', ':'] := by decide

theorem endMark_chars :
    endMark = ['-', '-', '-', ' ', 'E', 'N', 'D', ' ',
      'F', 'I', 'L', 'E', ':'] := by decide

theorem beginMark_not_isPre_endLine (x : List Char) :
    beginMark.isPrefixOf (endMark ++ x) = false := by
  rw [beginMark_chars, endMark_chars]
  simp [List.isPrefixOf]

theorem endMark_not_isPre_beginLine (x : List Char) :
    endMark.isPrefixOf (beginMark ++ x) = false := by
  rw [beginMark_chars, endMark_chars]
  simp [List.isPrefixOf]

theorem findSplit_isSome (sep : List Char) (s : List Char) :
    (findSplit sep s).isSome = containsSub sep s := by
  induction s with
  | nil =>
      by_cases h : sep.isEmpty <;> simp [findSplit, containsSub, h]
  | cons c cs ih =>
      by_cases h : sep.isPrefixOf (c :: cs)
      · simp [findSplit, containsSub, h]
      · have hpre : sep.isPrefixOf (c :: cs) = false := by
          cases hx : sep.isPrefixOf (c :: cs)
          · rfl
          · exact absurd hx h
        simp only [findSplit, containsSub, hpre, Bool.false_eq_true,
          if_false, Bool.false_or, ← ih]
        cases findSplit sep cs <;> simp

theorem splitSubGo_none (sep t : List Char) (h : findSplit sep t = none) :
    ∀ fuel, splitSubGo sep fuel t = [t] := by
  intro fuel
  cases fuel with
  | zero => rfl
  | succ n => simp [splitSubGo, h]

theorem findSplit_self (sep t : List Char) (h : sep ≠ []) :
    findSplit sep (sep ++ t) = some ([], t) := by
  cases sep with
  | nil => exact absurd rfl h
  | cons c cs =>
      rw [List.cons_append]
      rw [show findSplit (c :: cs) (c :: (cs ++ t)) =
        if (c :: cs).isPrefixOf (c :: (cs ++ t)) then
          some ([], (c :: (cs ++ t)).drop (c :: cs).length)
        else
          match findSplit (c :: cs) (cs ++ t) with
          | some (a, b) => some (c :: a, b)
          | none => none from rfl]
      rw [show (c :: (cs ++ t)) = (c :: cs) ++ t from rfl,
        isPrefixOf_self_append]
      simp [List.drop_left]

theorem splitSub_marker (p : List Char) (hp : okName p = true) :
    splitSub beginMark (beginLine p) = [[], ' ' :: (p ++ tailMark)] := by
  have hne : beginMark ≠ [] := by rw [beginMark_chars]; simp
  have hnosub : containsSub beginMark (' ' :: (p ++ tailMark)) = false := by
    simp only [okName, Bool.and_eq_true, Bool.not_eq_true'] at hp
    exact hp.2
  have hfind : findSplit beginMark (' ' :: (p ++ tailMark)) = none := by
    have := findSplit_isSome beginMark (' ' :: (p ++ tailMark))
    rw [hnosub] at this
    exact Option.not_isSome_iff_eq_none.mp (by simp [this])
  unfold splitSub
  rw [show beginLine p = beginMark ++ (' ' :: (p ++ tailMark)) from rfl]
  simp only [splitSubGo, findSplit_self beginMark _ hne]
  rw [hfind]

theorem pyStrip_cons_space (x : List Char) :
    pyStrip (' ' :: x) = pyStrip x := by
  simp [pyStrip, List.dropWhile, isPySpace]

theorem dropWhile_append_last (z : List Char) :
    ∃ w, List.dropWhile isPySpace (z ++ ['-']) = w ++ ['-'] := by
  induction z with
  | nil => exact ⟨[], rfl⟩
  | cons c z' ih =>
      by_cases hc : isPySpace c
      · rw [List.cons_append, List.dropWhile_cons_of_pos hc]
        exact ih
      · rw [List.cons_append,
          List.dropWhile_cons_of_neg (by simpa using hc)]
        exact ⟨c :: z', rfl⟩

theorem pyStrip_dash_ne_nil (z : List Char) : pyStrip (z ++ ['-']) ≠ [] := by
  obtain ⟨w, hw⟩ := dropWhile_append_last z
  unfold pyStrip
  rw [hw, List.reverse_append]
  show (List.dropWhile isPySpace ('-' :: w.reverse)).reverse ≠ []
  rw [List.dropWhile_cons_of_neg (by simp [isPySpace])]
  simp

theorem pyStrip_tail_ne_nil (x : List Char) :
    pyStrip (x ++ tailMark) ≠ [] := by
  have : x ++ tailMark = (x ++ [' ', '-', '-']) ++ ['-'] := by
    rw [show tailMark = [' ', '-', '-', '-'] from by decide]
    simp
  rw [this]
  exact pyStrip_dash_ne_nil _

theorem unpack_content_lines (lines : List (List Char))
    (hl : ∀ l ∈ lines, beginMark.isPrefixOf l = false ∧
      endMark.isPrefixOf l = false)
    (f acc : List Char) (rest : List (List Char)) :
    unpackGo (some f) acc (lines ++ rest) =
      unpackGo (some f) (acc ++ joinNL lines) rest := by
  induction lines generalizing acc with
  | nil => simp [joinNL]
  | cons l ls ih =>
      obtain ⟨hb, he⟩ := hl l (List.mem_cons_self l ls)
      rw [List.cons_append]
      rw [show unpackGo (some f) acc (l :: (ls ++ rest)) =
        unpackGo (some f) (acc ++ l ++ ['\n']) (ls ++ rest) by
          simp [unpackGo, hb, he]]
      rw [ih (fun x hx => hl x (List.mem_cons_of_mem l hx))]
      congr 1
      simp [joinNL]

theorem unpack_chunk (p c : List Char) (L : List (List Char))
    (hp : okName p = true) (hc : okContent c = true) :
    unpackGo none [] (chunkLines p c ++ L) =
      (pyStrip (p ++ tailMark), c ++ ['\n']) :: unpackGo none [] L := by
  have hcr : ∀ ch ∈ c, ch = '\n' ∨ isLineBreak ch = false := by
    intro ch hch
    simp only [okContent, Bool.and_eq_true, List.all_eq_true] at hc
    simpa using hc.1 ch hch
  have hml : ∀ l ∈ pySplitlines (c ++ ['\n']),
      beginMark.isPrefixOf l = false ∧ endMark.isPrefixOf l = false := by
    intro l hlmem
    simp only [okContent, Bool.and_eq_true, List.all_eq_true] at hc
    have := hc.2 l hlmem
    simp only [Bool.and_eq_true, Bool.not_eq_true'] at this
    exact this
  have hbegin : beginMark.isPrefixOf (beginLine p) = true := by
    rw [show beginLine p = beginMark ++ (' ' :: (p ++ tailMark)) from rfl]
    exact isPrefixOf_self_append _ _
  rw [show chunkLines p c ++ L =
    beginLine p :: (pySplitlines (c ++ ['\n']) ++ ([endLine p] ++ L)) by
      simp [chunkLines]]
  rw [show unpackGo none [] (beginLine p ::
      (pySplitlines (c ++ ['\n']) ++ ([endLine p] ++ L))) =
    unpackGo (some (pyStrip (p ++ tailMark))) []
      (pySplitlines (c ++ ['\n']) ++ ([endLine p] ++ L)) by
      simp [unpackGo, hbegin, splitSub_marker p hp, pyStrip_cons_space,
        writeCur, strTruthy]]
  rw [unpack_content_lines _ hml _ _ _]
  rw [joinNL_splitlines c hcr]
  have hnb : beginMark.isPrefixOf (endLine p) = false := by
    rw [show endLine p = endMark ++ (' ' :: (p ++ tailMark)) from rfl]
    exact beginMark_not_isPre_endLine _
  have hne : endMark.isPrefixOf (endLine p) = true := by
    rw [show endLine p = endMark ++ (' ' :: (p ++ tailMark)) from rfl]
    exact isPrefixOf_self_append _ _
  have htruthy : strTruthy (some (pyStrip (p ++ tailMark))) = true := by
    simp [strTruthy, pyStrip_tail_ne_nil p]
  rw [show ([endLine p] ++ L) = endLine p :: L from rfl]
  simp only [List.nil_append]
  rw [show unpackGo (some (pyStrip (p ++ tailMark))) (c ++ ['\n'])
      (endLine p :: L) =
    writeCur (some (pyStrip (p ++ tailMark))) (c ++ ['\n']) ++
      unpackGo none [] L by
      simp [unpackGo, hnb, hne, htruthy]]
  rw [show writeCur (some (pyStrip (p ++ tailMark))) (c ++ ['\n']) =
    [(pyStrip (p ++ tailMark), c ++ ['\n'])] by
      simp [writeCur, pyStrip_tail_ne_nil p]]
  rfl

theorem splitlines_pack_cons (p c : List Char) (rest : List Char)
    (hp : okName p = true) (hc : okContent c = true) :
    pySplitlines (packOne p c ++ rest) =
      chunkLines p c ++ pySplitlines rest := by
  have hpn : ∀ ch ∈ p, isLineBreak ch = false := by
    intro ch hch
    simp only [okName, Bool.and_eq_true, List.all_eq_true] at hp
    simpa using hp.1 ch hch
  have hcr : ∀ ch ∈ c, ch = '\n' ∨ isLineBreak ch = false := by
    intro ch hch
    simp only [okContent, Bool.and_eq_true, List.all_eq_true] at hc
    simpa using hc.1 ch hch
  have hmarkb : ∀ ch ∈ beginMark, isLineBreak ch = false := by
    rw [beginMark_chars]
    decide
  have hmarke : ∀ ch ∈ endMark, isLineBreak ch = false := by
    rw [endMark_chars]
    decide
  have htm : ∀ ch ∈ tailMark, isLineBreak ch = false := by
    rw [show tailMark = [' ', '-', '-', '-'] from by decide]
    decide
  have hb1 : ∀ ch ∈ beginLine p, isLineBreak ch = false := by
    intro ch hmem
    rw [show beginLine p = beginMark ++ (' ' :: (p ++ tailMark))
      from rfl] at hmem
    rcases List.mem_append.mp hmem with hm | hm
    · exact hmarkb ch hm
    · rcases List.mem_cons.mp hm with heq | hm
      · subst heq
        decide
      · rcases List.mem_append.mp hm with hm | hm
        · exact hpn ch hm
        · exact htm ch hm
  have he1 : ∀ ch ∈ endLine p, isLineBreak ch = false := by
    intro ch hmem
    rw [show endLine p = endMark ++ (' ' :: (p ++ tailMark))
      from rfl] at hmem
    rcases List.mem_append.mp hmem with hm | hm
    · exact hmarke ch hm
    · rcases List.mem_cons.mp hm with heq | hm
      · subst heq
        decide
      · rcases List.mem_append.mp hm with hm | hm
        · exact hpn ch hm
        · exact htm ch hm
  rw [show packOne p c ++ rest =
    beginLine p ++ '\n' :: (c ++ '\n' :: (endLine p ++ '\n' :: rest)) by
      simp [packOne]]
  rw [splitlines_append _ _ (fun ch hm => Or.inr (hb1 ch hm))]
  rw [splitlines_single _ hb1]
  rw [splitlines_append _ _ hcr]
  rw [splitlines_append _ _ (fun ch hm => Or.inr (he1 ch hm))]
  rw [splitlines_single _ he1]
  simp [chunkLines]

/-- **C3 counterexample.** The claim states that packing two files
and unpacking the packed stream reproduces both files' content
byte-for-byte.  It is false at the concrete pair
`("a.txt", "hello")`, `("b.txt", "x FILE: y")`: the unpacker writes
each accumulated line back with a trailing `"\n"`, so the recovered
contents are `"hello\n"` and `"x FILE: y\n"`. -/
theorem c3_roundtrip_counterexample :
    (_unpack_files (_pack_files
      [("a.txt".toList, "hello".toList),
       ("b.txt".toList, "x FILE: y".toList)])).map Prod.snd ≠
      ["hello".toList, "x FILE: y".toList] := by decide

/-- **C3 (amended).** For every list of files whose names contain no
line-break character and no embedded begin marker, and whose contents
contain no line-break character other than `"\n"` (Python's
`splitlines` also breaks at `\v`, `\f`, `\x1c`–`\x1e`, `\x85`,
`U+2028` and `U+2029`, which would additionally be rewritten to
`"\n"`) and no line beginning with a framing marker (in particular,
contents containing `"FILE:"` anywhere else are fine), unpacking the
packed stream reproduces each file in order with exactly one `"\n"`
appended to its content — and with `" ---"` (whitespace-stripped)
appended to its name by the marker parse.  The round trip is
therefore `content ↦ content ++ "\n"` on contents, not the
identity. -/
theorem c3_roundtrip_amended (files : List (List Char × List Char))
    (hok : ∀ f ∈ files, okName f.1 = true ∧ okContent f.2 = true) :
    _unpack_files (_pack_files files) =
      files.map fun f => (pyStrip (f.1 ++ tailMark), f.2 ++ ['\n']) := by
  induction files with
  | nil => rfl
  | cons f fs ih =>
      obtain ⟨hp, hc⟩ := hok f (List.mem_cons_self f fs)
      unfold _unpack_files
      rw [show _pack_files (f :: fs) =
        packOne f.1 f.2 ++ _pack_files fs by simp [_pack_files]]
      rw [splitlines_pack_cons f.1 f.2 _ hp hc]
      rw [unpack_chunk f.1 f.2 _ hp hc]
      rw [show unpackGo none [] (pySplitlines (_pack_files fs)) =
        _unpack_files (_pack_files fs) from rfl]
      rw [ih fun g hg => hok g (List.mem_cons_of_mem f hg)]
      rfl

/-- Witness for the amended C3 at the counterexample's own inputs:
the round trip yields `("a.txt ---", "hello\n")` and
`("b.txt ---", "x FILE: y\n")`. -/
theorem c3_roundtrip_amended_witness :
    _unpack_files (_pack_files
      [("a.txt".toList, "hello".toList),
       ("b.txt".toList, "x FILE: y".toList)]) =
      [("a.txt".toList, "hello".toList),
       ("b.txt".toList, "x FILE: y".toList)].map
        fun f => (pyStrip (f.1 ++ tailMark), f.2 ++ ['\n']) :=
  c3_roundtrip_amended
    [("a.txt".toList, "hello".toList),
     ("b.txt".toList, "x FILE: y".toList)]
    (by decide)

/-! ### C2: running the sync twice performs no calls the second
time -/

theorem mem_setAdd (s : List String) (x y : String) :
    y ∈ setAdd s x ↔ y ∈ s ∨ y = x := by
  unfold setAdd
  cases hc : s.contains x with
  | true =>
      have hx : x ∈ s := by simpa using hc
      simp only [if_true]
      constructor
      · exact Or.inl
      · rintro (hy | rfl)
        · exact hy
        · exact hx
  | false =>
      simp [List.mem_append]

theorem nodup_setAdd (s : List String) (x : String) (h : s.Nodup) :
    (setAdd s x).Nodup := by
  unfold setAdd
  cases hc : s.contains x with
  | true => simpa using h
  | false =>
      have hx : x ∉ s := by simpa using hc
      simp only [Bool.false_eq_true, if_false]
      rw [List.nodup_append]
      refine ⟨h, List.nodup_singleton x, ?_⟩
      intro a ha hb
      simp only [List.mem_singleton] at hb
      subst hb
      exact hx ha

theorem mem_foldl_setAdd (l : List String) :
    ∀ (acc : List String) (x : String),
      x ∈ l.foldl setAdd acc ↔ x ∈ acc ∨ x ∈ l := by
  induction l with
  | nil => simp
  | cons hd0 rest ih =>
      intro acc x
      rw [List.foldl_cons, ih]
      rw [mem_setAdd]
      constructor
      · rintro ((hx | rfl) | hx)
        · exact Or.inl hx
        · exact Or.inr (by simp)
        · exact Or.inr (by simp [hx])
      · rintro (hx | hx)
        · exact Or.inl (Or.inl hx)
        · rcases List.mem_cons.mp hx with rfl | hx
          · exact Or.inl (Or.inr rfl)
          · exact Or.inr hx

theorem nodup_foldl_setAdd (l : List String) :
    ∀ acc : List String, acc.Nodup → (l.foldl setAdd acc).Nodup := by
  induction l with
  | nil => exact fun acc h => h
  | cons hd0 rest ih =>
      intro acc h
      exact ih _ (nodup_setAdd acc hd0 h)

theorem mem_dedup (l : List String) (x : String) :
    x ∈ dedup l ↔ x ∈ l := by
  unfold dedup
  rw [mem_foldl_setAdd]
  simp

theorem nodup_dedup (l : List String) : (dedup l).Nodup :=
  nodup_foldl_setAdd l [] List.nodup_nil

theorem nodup_map_inj {α β : Type} (f : α → β) (l : List α)
    (h : (l.map f).Nodup) (a b : α) (ha : a ∈ l) (hb : b ∈ l)
    (hf : f a = f b) : a = b := by
  induction l with
  | nil => cases ha
  | cons x rest ih =>
      rw [List.map_cons, List.nodup_cons] at h
      rcases List.mem_cons.mp ha with rfl | ha' <;>
        rcases List.mem_cons.mp hb with rfl | hb'
      · rfl
      · exact absurd (hf ▸ List.mem_map_of_mem f hb') h.1
      · exact absurd (hf ▸ List.mem_map_of_mem f ha') h.1
      · exact ih h.2 ha' hb'

theorem namedRecords_nil_of_not_mem (l : List RemoteFile) (q : String)
    (h : q ∉ l.map RemoteFile.file_name) : namedRecords l q = [] := by
  unfold namedRecords
  rw [List.filter_eq_nil_iff]
  intro rf hrf
  simp only [beq_iff_eq]
  intro hq
  exact h (hq ▸ List.mem_map_of_mem RemoteFile.file_name hrf)

theorem namedRecords_singleton (l : List RemoteFile)
    (h : (l.map RemoteFile.file_name).Nodup) (rf : RemoteFile)
    (hrf : rf ∈ l) : namedRecords l rf.file_name = [rf] := by
  induction l with
  | nil => cases hrf
  | cons x rest ih =>
      rw [List.map_cons, List.nodup_cons] at h
      rcases List.mem_cons.mp hrf with rfl | hmem
      · unfold namedRecords
        rw [List.filter_cons_of_pos (by simp)]
        rw [show List.filter (fun r => r.file_name == rf.file_name) rest =
          namedRecords rest rf.file_name from rfl]
        rw [namedRecords_nil_of_not_mem rest rf.file_name h.1]
      · have hx : (x.file_name == rf.file_name) = false := by
          simp only [beq_eq_false_iff_ne, ne_eq]
          intro hq
          exact h.1 (hq ▸ List.mem_map_of_mem RemoteFile.file_name hmem)
        unfold namedRecords
        rw [List.filter_cons_of_neg (by simp [hx])]
        exact ih h.2 hmem

theorem findRemote_eq_head_named (l : List RemoteFile) (q : String) :
    findRemote l q = (namedRecords l q).head? :=
  Eq.symm (List.filter_head? _ l)

theorem joinPath_right_inj (R p p' : String)
    (h : joinPath R p = joinPath R p') : p = p' := by
  unfold joinPath at h
  have hd := congrArg String.data h
  simp only [String.data_append] at hd
  have hpp := List.append_cancel_left hd
  cases p with
  | mk d1 =>
      cases p' with
      | mk d2 =>
          have hdd : d1 = d2 := by simpa using hpp
          rw [hdd]

theorem mkDisk_lookup (R : String) (files : List (String × String))
    (hnd : (files.map Prod.fst).Nodup) (p c : String)
    (hmem : (p, c) ∈ files) :
    (mkDisk R files).lookup (joinPath R p) = some c := by
  induction files with
  | nil => cases hmem
  | cons pc rest ih =>
      rw [List.map_cons, List.nodup_cons] at hnd
      rcases List.mem_cons.mp hmem with heq | hmem'
      · subst heq
        simp [mkDisk, List.lookup_cons]
      · obtain ⟨pk, pv⟩ := pc
        have hne : p ≠ pk := by
          intro hq
          apply hnd.1
          rw [← hq]
          exact List.mem_map.mpr ⟨(p, c), hmem', rfl⟩
        have hbeq : (joinPath R p == joinPath R pk) = false := by
          simp only [beq_eq_false_iff_ne, ne_eq]
          intro hj
          exact hne (joinPath_right_inj R p pk hj)
        simp only [mkDisk, List.map_cons, List.lookup_cons, hbeq]
        exact ih hnd.2 hmem'

theorem pruneLoop_char (listing : List RemoteFile) (cand : List String) :
    ∀ st : RemoteState,
      ((pruneLoop listing cand st).2).nextUuid = st.nextUuid ∧
      ∀ rf, rf ∈ ((pruneLoop listing cand st).2).files ↔
        (rf ∈ st.files ∧ ∀ q ∈ cand, ∀ rq, findRemote listing q = some rq →
          rf.uuid ≠ rq.uuid) := by
  induction cand with
  | nil =>
      intro st
      exact ⟨rfl, fun rf => by simp [pruneLoop]⟩
  | cons c cs ih =>
      intro st
      cases hf : findRemote listing c with
      | none =>
          constructor
          · rw [show (pruneLoop listing (c :: cs) st).2 =
              (pruneLoop listing cs st).2 by simp [pruneLoop, hf]]
            exact (ih st).1
          · intro rf
            rw [show (pruneLoop listing (c :: cs) st).2 =
              (pruneLoop listing cs st).2 by simp [pruneLoop, hf]]
            rw [(ih st).2 rf]
            constructor
            · rintro ⟨hmem, hall⟩
              refine ⟨hmem, fun q hq rq hrq => ?_⟩
              rcases List.mem_cons.mp hq with rfl | hq'
              · rw [hf] at hrq; cases hrq
              · exact hall q hq' rq hrq
            · rintro ⟨hmem, hall⟩
              exact ⟨hmem, fun q hq rq hrq =>
                hall q (List.mem_cons_of_mem c hq) rq hrq⟩
      | some rq0 =>
          have hstep : (pruneLoop listing (c :: cs) st).2 =
              (pruneLoop listing cs (st.deleteFile rq0.uuid)).2 := by
            simp [pruneLoop, hf]
          constructor
          · rw [hstep, (ih _).1]
            rfl
          · intro rf
            rw [hstep, (ih _).2 rf]
            have hdel : rf ∈ (st.deleteFile rq0.uuid).files ↔
                rf ∈ st.files ∧ rf.uuid ≠ rq0.uuid := by
              simp [RemoteState.deleteFile, List.mem_filter]
            rw [hdel]
            constructor
            · rintro ⟨⟨hmem, hne⟩, hall⟩
              refine ⟨hmem, fun q hq rq hrq => ?_⟩
              rcases List.mem_cons.mp hq with rfl | hq'
              · rw [hf] at hrq
                obtain rfl := Option.some.inj hrq
                exact hne
              · exact hall q hq' rq hrq
            · rintro ⟨hmem, hall⟩
              exact ⟨⟨hmem, hall c (List.mem_cons_self c cs) rq0 hf⟩,
                fun q hq rq hrq =>
                  hall q (List.mem_cons_of_mem c hq) rq hrq⟩

theorem localPass_skip_all (md5 : String → String) (cfg : SyncCfg)
    (disk : List (String × String)) (listing : List RemoteFile)
    (todo : List (String × String)) :
    ∀ (st : RemoteState) (cand synced : List String),
      (∀ pc ∈ todo, ∃ rf, findRemote listing pc.1 = some rf ∧
        md5 rf.content = md5 pc.2) →
      localPass md5 cfg disk listing (mkLocals md5 todo) st cand synced =
        .ok ([], st, todo.foldl (fun cd pc => cd.erase pc.1) cand, synced) := by
  induction todo with
  | nil => intro st cand synced _; rfl
  | cons pc rest ih =>
      intro st cand synced h
      obtain ⟨rf, hfind, hhash⟩ := h pc (List.mem_cons_self pc rest)
      have hupd : update_existing_file md5 disk pc.1
          (FileVal.localHash (.hashOnly (md5 pc.2))) rf cand synced
          (FileVal.fileRoot (.hashOnly (md5 pc.2)) cfg.local_path) st =
          .ok ([], st, cand.erase pc.1, synced) := by
        unfold update_existing_file
        rw [if_neg]
        simp only [FileVal.localHash, ne_eq, Decidable.not_not]
        exact hhash.symm
      rw [show mkLocals md5 (pc :: rest) =
        (pc.1, FileVal.hashOnly (md5 pc.2)) :: mkLocals md5 rest by
          simp [mkLocals]]
      simp only [localPass, hfind, hupd,
        ih st (cand.erase pc.1) synced
          (fun q hq => h q (List.mem_cons_of_mem pc hq)),
        List.nil_append, List.foldl_cons]

theorem foldl_erase_nil (keysrc : List (String × String)) :
    ∀ cand : List String, cand.Nodup →
      (∀ q ∈ cand, q ∈ keysrc.map Prod.fst) →
      keysrc.foldl (fun cd pc => cd.erase pc.1) cand = [] := by
  induction keysrc with
  | nil =>
      intro cand _ hsub
      cases cand with
      | nil => rfl
      | cons a l => exact absurd (hsub a (List.mem_cons_self a l)) (by simp)
  | cons pc rest ih =>
      intro cand hnd hsub
      rw [List.foldl_cons]
      apply ih _ (List.Nodup.erase _ hnd)
      intro q hq
      obtain ⟨hne, hq'⟩ := (List.Nodup.mem_erase_iff hnd).mp hq
      have := hsub q hq'
      rw [List.map_cons] at this
      rcases List.mem_cons.mp this with heq | hm
      · exact absurd heq hne
      · exact hm

theorem find?_filter_of_mem {α : Type} (p f : α → Bool) :
    ∀ (l : List α) (a : α), l.find? p = some a → f a = true →
      (l.filter f).find? p = some a := by
  intro l
  induction l with
  | nil => intro a h _; cases h
  | cons x xs ih =>
      intro a h hf
      cases hp : p x with
      | true =>
          rw [List.find?_cons_of_pos _ hp] at h
          obtain rfl := Option.some.inj h
          rw [List.filter_cons_of_pos hf]
          exact List.find?_cons_of_pos _ hp
      | false =>
          rw [List.find?_cons_of_neg _ (by simp [hp])] at h
          cases hfx : f x with
          | true =>
              rw [List.filter_cons_of_pos hfx,
                List.find?_cons_of_neg _ (by simp [hp])]
              exact ih a h hf
          | false =>
              rw [List.filter_cons_of_neg (by simp [hfx])]
              exact ih a h hf

theorem findRemote_none_filter (l : List RemoteFile) (f : RemoteFile → Bool)
    (q : String) (h : findRemote l q = none) :
    findRemote (l.filter f) q = none := by
  unfold findRemote at h ⊢
  rw [List.find?_eq_none] at h ⊢
  intro x hx
  exact h x (List.mem_of_mem_filter hx)

theorem findRemote_append_ne (l : List RemoteFile) (x : RemoteFile)
    (q : String) (h : x.file_name ≠ q) :
    findRemote (l ++ [x]) q = findRemote l q := by
  unfold findRemote
  induction l with
  | nil =>
      rw [List.nil_append]
      simp [List.find?_cons, h]
  | cons y ys ih =>
      rw [List.cons_append, List.find?_cons, List.find?_cons]
      cases hy : (y.file_name == q) with
      | true => rfl
      | false => exact ih

theorem findRemote_mem (l : List RemoteFile) (q : String) (rf : RemoteFile)
    (h : findRemote l q = some rf) : rf ∈ l ∧ rf.file_name = q := by
  unfold findRemote at h
  refine ⟨List.mem_of_find?_eq_some h, ?_⟩
  have := List.find?_some h
  simpa using this

theorem findRemote_of_nodup_mem (l : List RemoteFile)
    (h : (l.map RemoteFile.file_name).Nodup) (rf : RemoteFile)
    (hrf : rf ∈ l) : findRemote l rf.file_name = some rf := by
  rw [findRemote_eq_head_named, namedRecords_singleton l h rf hrf]
  rfl

theorem not_mem_names_of_findRemote_none (l : List RemoteFile) (q : String)
    (h : findRemote l q = none) : q ∉ l.map RemoteFile.file_name := by
  unfold findRemote at h
  rw [List.find?_eq_none] at h
  intro hq
  obtain ⟨rf, hrf, hname⟩ := List.mem_map.mp hq
  exact h rf hrf (by simp [hname])

theorem pruneLoop_sublist (listing : List RemoteFile) :
    ∀ (cand : List String) (st : RemoteState),
      ((pruneLoop listing cand st).2).files.Sublist st.files := by
  intro cand
  induction cand with
  | nil => intro st; exact List.Sublist.refl _
  | cons c cs ih =>
      intro st
      cases hf : findRemote listing c with
      | none =>
          rw [show (pruneLoop listing (c :: cs) st).2 =
            (pruneLoop listing cs st).2 by simp [pruneLoop, hf]]
          exact ih st
      | some rq =>
          rw [show (pruneLoop listing (c :: cs) st).2 =
            (pruneLoop listing cs (st.deleteFile rq.uuid)).2 by
              simp [pruneLoop, hf]]
          exact (ih _).trans (List.filter_sublist _)

theorem localPass_run1 (md5 : String → String) (cfg : SyncCfg)
    (disk : List (String × String)) (listing : List RemoteFile) :
    ∀ (todo : List (String × String)) (st : RemoteState)
      (cand synced : List String),
      (∀ pc ∈ todo,
        diskRead disk (joinPath cfg.local_path pc.1) = some pc.2) →
      ∃ ops syncedOut,
        localPass md5 cfg disk listing (mkLocals md5 todo) st cand synced =
          .ok (ops, run1St md5 listing todo st, run1Cand listing todo cand,
            syncedOut) := by
  intro todo
  induction todo with
  | nil => intro st cand synced _; exact ⟨[], synced, rfl⟩
  | cons pc rest ih =>
      intro st cand synced h
      have hdisk := h pc (List.mem_cons_self pc rest)
      have hrest : ∀ pc' ∈ rest,
          diskRead disk (joinPath cfg.local_path pc'.1) = some pc'.2 :=
        fun pc' hpc' => h pc' (List.mem_cons_of_mem pc hpc')
      rw [show mkLocals md5 (pc :: rest) =
        (pc.1, FileVal.hashOnly (md5 pc.2)) :: mkLocals md5 rest by
          simp [mkLocals]]
      cases hf : findRemote listing pc.1 with
      | some rf =>
          by_cases hm : md5 pc.2 ≠ md5 rf.content
          · have hupd : update_existing_file md5 disk pc.1
                (FileVal.hashOnly (md5 pc.2)).localHash rf cand synced
                ((FileVal.hashOnly (md5 pc.2)).fileRoot cfg.local_path) st =
                .ok ([.delete rf.uuid, .upload pc.1 pc.2],
                  (st.deleteFile rf.uuid).uploadFile pc.1 pc.2,
                  cand.erase pc.1, setAdd synced pc.1) := by
              unfold update_existing_file
              rw [if_pos (by simpa [FileVal.localHash] using hm)]
              rw [show ((FileVal.hashOnly (md5 pc.2)).fileRoot
                cfg.local_path) = cfg.local_path from rfl]
              rw [hdisk]
            obtain ⟨ops2, so2, hrec⟩ :=
              ih ((st.deleteFile rf.uuid).uploadFile pc.1 pc.2)
                (cand.erase pc.1) (setAdd synced pc.1) hrest
            refine ⟨[.delete rf.uuid, .upload pc.1 pc.2] ++ ops2, so2, ?_⟩
            simp only [localPass, hf, hupd, hrec, run1St, run1Cand,
              List.foldl_cons, step1, stepCand, hm, Option.isSome_some,
              if_true, ite_true, ne_eq, not_false_iff]
          · have hupd : update_existing_file md5 disk pc.1
                (FileVal.hashOnly (md5 pc.2)).localHash rf cand synced
                ((FileVal.hashOnly (md5 pc.2)).fileRoot cfg.local_path) st =
                .ok ([], st, cand.erase pc.1, synced) := by
              unfold update_existing_file
              rw [if_neg (by simpa [FileVal.localHash] using hm)]
            obtain ⟨ops2, so2, hrec⟩ :=
              ih st (cand.erase pc.1) synced hrest
            refine ⟨ops2, so2, ?_⟩
            simp only [localPass, hf, hupd, hrec, run1St, run1Cand,
              List.foldl_cons, step1, stepCand, hm, Option.isSome_some,
              if_true, ite_true, ite_false, List.nil_append]
      | none =>
          have hup : upload_new_file disk pc.1 synced
              ((FileVal.hashOnly (md5 pc.2)).fileRoot cfg.local_path) st =
              .ok ([.upload pc.1 pc.2], st.uploadFile pc.1 pc.2,
                setAdd synced pc.1) := by
            unfold upload_new_file
            rw [show ((FileVal.hashOnly (md5 pc.2)).fileRoot
              cfg.local_path) = cfg.local_path from rfl]
            rw [hdisk]
          obtain ⟨ops2, so2, hrec⟩ :=
            ih (st.uploadFile pc.1 pc.2) cand (setAdd synced pc.1) hrest
          refine ⟨[.upload pc.1 pc.2] ++ ops2, so2, ?_⟩
          simp only [localPass, hf, hup, hrec, run1St, run1Cand,
            List.foldl_cons, step1, stepCand, Option.isSome_none,
            ite_false, Bool.false_eq_true, if_false]

theorem run1Cand_spec (listing : List RemoteFile) :
    ∀ (todo : List (String × String)) (cand : List String), cand.Nodup →
      (run1Cand listing todo cand).Nodup ∧
      ∀ q, (q ∈ run1Cand listing todo cand ↔
        q ∈ cand ∧ ∀ pc ∈ todo, (findRemote listing pc.1).isSome →
          q ≠ pc.1) := by
  intro todo
  induction todo with
  | nil =>
      intro cand hnd
      exact ⟨hnd, fun q => by simp [run1Cand]⟩
  | cons pc rest ih =>
      intro cand hnd
      have hstep : run1Cand listing (pc :: rest) cand =
          run1Cand listing rest (stepCand listing cand pc) := rfl
      cases hf : (findRemote listing pc.1).isSome with
      | false =>
          have hsc : stepCand listing cand pc = cand := by
            simp [stepCand, hf]
          obtain ⟨hnd', hmem⟩ := ih cand hnd
          rw [hstep, hsc]
          refine ⟨hnd', fun q => ?_⟩
          rw [hmem q]
          constructor
          · rintro ⟨hq, hall⟩
            refine ⟨hq, fun pc' hpc' hs => ?_⟩
            rcases List.mem_cons.mp hpc' with rfl | h'
            · rw [hf] at hs; cases hs
            · exact hall pc' h' hs
          · rintro ⟨hq, hall⟩
            exact ⟨hq, fun pc' h' hs =>
              hall pc' (List.mem_cons_of_mem pc h') hs⟩
      | true =>
          have hsc : stepCand listing cand pc = cand.erase pc.1 := by
            simp [stepCand, hf]
          obtain ⟨hnd', hmem⟩ := ih (cand.erase pc.1)
            (List.Nodup.erase _ hnd)
          rw [hstep, hsc]
          refine ⟨hnd', fun q => ?_⟩
          rw [hmem q]
          rw [List.Nodup.mem_erase_iff hnd]
          constructor
          · rintro ⟨⟨hne, hq⟩, hall⟩
            refine ⟨hq, fun pc' hpc' hs => ?_⟩
            rcases List.mem_cons.mp hpc' with rfl | h'
            · exact hne
            · exact hall pc' h' hs
          · rintro ⟨hq, hall⟩
            exact ⟨⟨hall pc (List.mem_cons_self pc rest) hf, hq⟩,
              fun pc' h' hs => hall pc' (List.mem_cons_of_mem pc h') hs⟩

theorem uploadFile_names (st : RemoteState) (n c : String)
    (h : (st.files.map RemoteFile.file_name).Nodup)
    (hn : n ∉ st.files.map RemoteFile.file_name) :
    ((st.uploadFile n c).files.map RemoteFile.file_name).Nodup := by
  show ((st.files ++ [(⟨n, st.nextUuid, c⟩ : RemoteFile)]).map RemoteFile.file_name).Nodup
  rw [List.map_append, List.nodup_append]
  refine ⟨h, List.nodup_singleton _, ?_⟩
  intro a ha hb
  rw [show (([⟨n, st.nextUuid, c⟩] : List RemoteFile).map
    RemoteFile.file_name) = [n] from rfl] at hb
  rw [List.mem_singleton] at hb
  subst hb
  exact hn ha

theorem uploadFile_uuids (st : RemoteState) (n c : String)
    (h : (st.files.map RemoteFile.uuid).Nodup)
    (hfr : ∀ rf ∈ st.files, rf.uuid < st.nextUuid) :
    ((st.uploadFile n c).files.map RemoteFile.uuid).Nodup := by
  show ((st.files ++ [(⟨n, st.nextUuid, c⟩ : RemoteFile)]).map RemoteFile.uuid).Nodup
  rw [List.map_append, List.nodup_append]
  refine ⟨h, List.nodup_singleton _, ?_⟩
  intro a ha hb
  rw [show (([⟨n, st.nextUuid, c⟩] : List RemoteFile).map
    RemoteFile.uuid) = [st.nextUuid] from rfl] at hb
  rw [List.mem_singleton] at hb
  subst hb
  obtain ⟨rf, hrf, huq⟩ := List.mem_map.mp ha
  exact absurd huq (Nat.ne_of_lt (hfr rf hrf))

theorem uploadFile_fresh (st : RemoteState) (n c : String)
    (hfr : ∀ rf ∈ st.files, rf.uuid < st.nextUuid) :
    ∀ rf ∈ (st.uploadFile n c).files,
      rf.uuid < (st.uploadFile n c).nextUuid := by
  intro rf hrf
  rcases List.mem_append.mp
    (show rf ∈ st.files ++ [⟨n, st.nextUuid, c⟩] from hrf) with hl | hr
  · exact Nat.lt_succ_of_lt (hfr rf hl)
  · rw [List.mem_singleton] at hr
    subst hr
    exact Nat.lt_succ_self _

theorem run1St_spec (md5 : String → String) (listing : List RemoteFile)
    (B : Nat) (hlist : ∀ rf ∈ listing, rf.uuid < B)
    (hlu : (listing.map RemoteFile.uuid).Nodup) :
    ∀ (todo : List (String × String)) (st : RemoteState),
      (todo.map Prod.fst).Nodup →
      (st.files.map RemoteFile.file_name).Nodup →
      (st.files.map RemoteFile.uuid).Nodup →
      (∀ rf ∈ st.files, rf.uuid < st.nextUuid) →
      (∀ pc ∈ todo, findRemote st.files pc.1 = findRemote listing pc.1) →
      B ≤ st.nextUuid →
      ((run1St md5 listing todo st).files.map RemoteFile.file_name).Nodup ∧
      ((run1St md5 listing todo st).files.map RemoteFile.uuid).Nodup ∧
      (∀ rf ∈ (run1St md5 listing todo st).files,
        rf.uuid < (run1St md5 listing todo st).nextUuid) ∧
      st.nextUuid ≤ (run1St md5 listing todo st).nextUuid ∧
      (∀ rf ∈ (run1St md5 listing todo st).files,
        rf ∈ st.files ∨ rf.file_name ∈ todo.map Prod.fst) ∧
      (∀ rf ∈ st.files,
        (∀ pc ∈ todo, ∀ rq, findRemote listing pc.1 = some rq →
          rf.uuid ≠ rq.uuid) →
        rf ∈ (run1St md5 listing todo st).files) ∧
      (∀ pc ∈ todo, ∃ rf, rf ∈ (run1St md5 listing todo st).files ∧
        rf.file_name = pc.1 ∧ md5 rf.content = md5 pc.2 ∧
        (rf ∈ listing ∨ B ≤ rf.uuid)) := by
  intro todo
  induction todo with
  | nil =>
      intro st _ hn hu hfr _ _
      simp only [run1St, List.foldl_nil]
      exact ⟨hn, hu, hfr, Nat.le_refl _, fun rf h => Or.inl h,
        fun rf h _ => h, fun pc hpc => absurd hpc (List.not_mem_nil pc)⟩
  | cons pc rest ih =>
      intro st hk hn hu hfr hagree hB
      have hk' : (rest.map Prod.fst).Nodup := by
        rw [List.map_cons, List.nodup_cons] at hk
        exact hk.2
      have hpcnot : pc.1 ∉ rest.map Prod.fst := by
        rw [List.map_cons, List.nodup_cons] at hk
        exact hk.1
      have hagree_pc : findRemote st.files pc.1 = findRemote listing pc.1 :=
        hagree pc (List.mem_cons_self pc rest)
      have hagree' : ∀ pc' ∈ rest,
          findRemote st.files pc'.1 = findRemote listing pc'.1 :=
        fun pc' h' => hagree pc' (List.mem_cons_of_mem pc h')
      have hfold : run1St md5 listing (pc :: rest) st =
          run1St md5 listing rest (step1 md5 listing st pc) := rfl
      have hnerest : ∀ pc' ∈ rest, pc.1 ≠ pc'.1 := by
        intro pc' h' hequ
        exact hpcnot (hequ ▸ List.mem_map.mpr ⟨pc', h', rfl⟩)
      cases hf : findRemote listing pc.1 with
      | none =>
          have hstep : step1 md5 listing st pc = st.uploadFile pc.1 pc.2 := by
            simp [step1, hf]
          rw [hfold, hstep]
          have hnot : pc.1 ∉ st.files.map RemoteFile.file_name :=
            not_mem_names_of_findRemote_none st.files pc.1
              (hagree_pc.trans hf)
          have hagree1 : ∀ pc' ∈ rest,
              findRemote (st.uploadFile pc.1 pc.2).files pc'.1 =
                findRemote listing pc'.1 := by
            intro pc' h'
            rw [show (st.uploadFile pc.1 pc.2).files =
              st.files ++ [⟨pc.1, st.nextUuid, pc.2⟩] from rfl]
            rw [findRemote_append_ne st.files _ pc'.1 (hnerest pc' h')]
            exact hagree' pc' h'
          obtain ⟨A1, A2, A3, A4, A5, A6, A7⟩ :=
            ih (st.uploadFile pc.1 pc.2) hk'
              (uploadFile_names st pc.1 pc.2 hn hnot)
              (uploadFile_uuids st pc.1 pc.2 hu hfr)
              (uploadFile_fresh st pc.1 pc.2 hfr) hagree1
              (Nat.le_succ_of_le hB)
          refine ⟨A1, A2, A3, Nat.le_trans (Nat.le_succ _) A4, ?_, ?_, ?_⟩
          · intro rf h'
            rcases A5 rf h' with h5 | h5
            · rcases List.mem_append.mp
                (show rf ∈ st.files ++ [⟨pc.1, st.nextUuid, pc.2⟩]
                  from h5) with hl | hr
              · exact Or.inl hl
              · rw [List.mem_singleton] at hr
                subst hr
                exact Or.inr (by rw [List.map_cons]; exact
                  List.mem_cons_self _ _)
            · exact Or.inr (by rw [List.map_cons]; exact
                List.mem_cons_of_mem _ h5)
          · intro rf h' hyp
            refine A6 rf ?_ (fun pc' hpc' rq hrq =>
              hyp pc' (List.mem_cons_of_mem pc hpc') rq hrq)
            exact List.mem_append_left _ h'
          · intro pc' hpc'
            rcases List.mem_cons.mp hpc' with rfl | h'
            · refine ⟨⟨pc'.1, st.nextUuid, pc'.2⟩, ?_, rfl, rfl,
                Or.inr hB⟩
              apply A6
              · exact List.mem_append_right _ (List.mem_singleton_self _)
              · intro pc'' hpc'' rq hrq hequ
                have hrqm := findRemote_mem listing pc''.1 rq hrq
                exact absurd hequ.symm
                  (Nat.ne_of_lt (Nat.lt_of_lt_of_le (hlist rq hrqm.1) hB))
            · exact A7 pc' h'
      | some rf0 =>
          have hmem0 : rf0 ∈ st.files ∧ rf0.file_name = pc.1 :=
            findRemote_mem st.files pc.1 rf0 (hagree_pc.trans hf)
          have hlist0 : rf0 ∈ listing ∧ rf0.file_name = pc.1 :=
            findRemote_mem listing pc.1 rf0 hf
          by_cases hm : md5 pc.2 ≠ md5 rf0.content
          · -- hash mismatch: delete the stale record, upload fresh content
            have hstep : step1 md5 listing st pc =
                (st.deleteFile rf0.uuid).uploadFile pc.1 pc.2 := by
              simp [step1, hf, hm]
            rw [hfold, hstep]
            have hsubD : (st.deleteFile rf0.uuid).files.Sublist st.files :=
              List.filter_sublist _
            have ndD : ((st.deleteFile rf0.uuid).files.map
                RemoteFile.file_name).Nodup :=
              List.Nodup.sublist (List.Sublist.map _ hsubD) hn
            have udD : ((st.deleteFile rf0.uuid).files.map
                RemoteFile.uuid).Nodup :=
              List.Nodup.sublist (List.Sublist.map _ hsubD) hu
            have frD : ∀ rf ∈ (st.deleteFile rf0.uuid).files,
                rf.uuid < (st.deleteFile rf0.uuid).nextUuid :=
              fun rf h' => hfr rf (hsubD.mem h')
            have hnotD : pc.1 ∉ (st.deleteFile rf0.uuid).files.map
                RemoteFile.file_name := by
              intro ha
              obtain ⟨rf', hrf', hname'⟩ := List.mem_map.mp ha
              have hrf'' := List.mem_filter.mp
                (show rf' ∈ st.files.filter
                  (fun rf2 => rf2.uuid ≠ rf0.uuid) from hrf')
              have heqr : rf' = rf0 :=
                nodup_map_inj RemoteFile.file_name st.files hn rf' rf0
                  hrf''.1 hmem0.1 (hname'.trans hmem0.2.symm)
              have : rf'.uuid ≠ rf0.uuid := by simpa using hrf''.2
              exact this (heqr ▸ rfl)
            have hagree1 : ∀ pc' ∈ rest,
                findRemote ((st.deleteFile rf0.uuid).uploadFile
                  pc.1 pc.2).files pc'.1 = findRemote listing pc'.1 := by
              intro pc' h'
              rw [show ((st.deleteFile rf0.uuid).uploadFile pc.1
                pc.2).files = (st.deleteFile rf0.uuid).files ++
                [⟨pc.1, st.nextUuid, pc.2⟩] from rfl]
              rw [findRemote_append_ne _ _ pc'.1 (hnerest pc' h')]
              rw [← hagree' pc' h']
              cases hsq : findRemote st.files pc'.1 with
              | none =>
                  exact findRemote_none_filter st.files _ pc'.1 hsq
              | some rq =>
                  have hrqm := findRemote_mem st.files pc'.1 rq hsq
                  have hrqne : rq.uuid ≠ rf0.uuid := by
                    intro hequ
                    have heq2 : rq = rf0 :=
                      nodup_map_inj RemoteFile.uuid st.files hu rq rf0
                        hrqm.1 hmem0.1 hequ
                    apply hnerest pc' h'
                    rw [← hmem0.2, ← heq2, hrqm.2]
                  exact find?_filter_of_mem _ _ st.files rq hsq
                    (by simpa using hrqne)
            obtain ⟨A1, A2, A3, A4, A5, A6, A7⟩ :=
              ih ((st.deleteFile rf0.uuid).uploadFile pc.1 pc.2) hk'
                (uploadFile_names _ pc.1 pc.2 ndD hnotD)
                (uploadFile_uuids _ pc.1 pc.2 udD frD)
                (uploadFile_fresh _ pc.1 pc.2 frD) hagree1
                (Nat.le_succ_of_le hB)
            refine ⟨A1, A2, A3, Nat.le_trans (Nat.le_succ _) A4, ?_, ?_, ?_⟩
            · intro rf h'
              rcases A5 rf h' with h5 | h5
              · rcases List.mem_append.mp
                  (show rf ∈ (st.deleteFile rf0.uuid).files ++
                    [⟨pc.1, st.nextUuid, pc.2⟩] from h5) with hl | hr
                · exact Or.inl (hsubD.mem hl)
                · rw [List.mem_singleton] at hr
                  subst hr
                  exact Or.inr (by rw [List.map_cons]; exact
                    List.mem_cons_self _ _)
              · exact Or.inr (by rw [List.map_cons]; exact
                  List.mem_cons_of_mem _ h5)
            · intro rf h' hyp
              have hne0 : rf.uuid ≠ rf0.uuid :=
                hyp pc (List.mem_cons_self pc rest) rf0 hf
              refine A6 rf ?_ (fun pc' hpc' rq hrq =>
                hyp pc' (List.mem_cons_of_mem pc hpc') rq hrq)
              apply List.mem_append_left
              exact List.mem_filter.mpr ⟨h', by simpa using hne0⟩
            · intro pc' hpc'
              rcases List.mem_cons.mp hpc' with rfl | h'
              · refine ⟨⟨pc'.1, st.nextUuid, pc'.2⟩, ?_, rfl, rfl,
                  Or.inr hB⟩
                apply A6
                · exact List.mem_append_right _ (List.mem_singleton_self _)
                · intro pc'' hpc'' rq hrq hequ
                  have hrqm := findRemote_mem listing pc''.1 rq hrq
                  exact absurd hequ.symm
                    (Nat.ne_of_lt (Nat.lt_of_lt_of_le (hlist rq hrqm.1) hB))
              · exact A7 pc' h'
          · -- hash match: the record is kept, no provider call
            have hstep : step1 md5 listing st pc = st := by
              simp [step1, hf, hm]
            rw [hfold, hstep]
            obtain ⟨A1, A2, A3, A4, A5, A6, A7⟩ :=
              ih st hk' hn hu hfr hagree' hB
            refine ⟨A1, A2, A3, A4, ?_, ?_, ?_⟩
            · intro rf h'
              rcases A5 rf h' with h5 | h5
              · exact Or.inl h5
              · exact Or.inr (by rw [List.map_cons]; exact
                  List.mem_cons_of_mem _ h5)
            · intro rf h' hyp
              exact A6 rf h' (fun pc' hpc' rq hrq =>
                hyp pc' (List.mem_cons_of_mem pc hpc') rq hrq)
            · intro pc' hpc'
              rcases List.mem_cons.mp hpc' with rfl | h'
              · refine ⟨rf0, ?_, hmem0.2, (not_not.mp hm).symm,
                  Or.inl hlist0.1⟩
                apply A6 rf0 hmem0.1
                intro pc'' hpc'' rq hrq hequ
                have hrqm := findRemote_mem listing pc''.1 rq hrq
                have heq2 : rf0 = rq :=
                  nodup_map_inj RemoteFile.uuid listing hlu rf0 rq
                    hlist0.1 hrqm.1 hequ
                apply hnerest pc'' hpc''
                rw [← hmem0.2, heq2, hrqm.2]
              · exact A7 pc' h'

theorem run1_final_facts (md5 : String → String)
    (files : List (String × String)) (st0 : RemoteState)
    (hkeys : (files.map Prod.fst).Nodup)
    (hnames : (st0.files.map RemoteFile.file_name).Nodup)
    (huuids : (st0.files.map RemoteFile.uuid).Nodup)
    (hfresh : ∀ rf ∈ st0.files, rf.uuid < st0.nextUuid)
    (st' : RemoteState)
    (hst' : st' = (pruneLoop st0.files
      (run1Cand st0.files files
        (dedup (st0.files.map fun rf => rf.file_name)))
      (run1St md5 st0.files files st0)).2) :
    (∀ pc ∈ files, ∃ rf, findRemote st'.files pc.1 = some rf ∧
      md5 rf.content = md5 pc.2) ∧
    (∀ rf ∈ st'.files, rf.file_name ∈ files.map Prod.fst) := by
  obtain ⟨S1, S2, S3, S4, S5, S6, S7⟩ :=
    run1St_spec md5 st0.files st0.nextUuid hfresh huuids files st0
      hkeys hnames huuids hfresh (fun pc _ => rfl) (Nat.le_refl _)
  obtain ⟨C1nd, C1mem⟩ :=
    run1Cand_spec st0.files files
      (dedup (st0.files.map fun rf => rf.file_name)) (nodup_dedup _)
  obtain ⟨hPn, hPmem⟩ := pruneLoop_char st0.files
    (run1Cand st0.files files
      (dedup (st0.files.map fun rf => rf.file_name)))
    (run1St md5 st0.files files st0)
  have hPsub := pruneLoop_sublist st0.files
    (run1Cand st0.files files
      (dedup (st0.files.map fun rf => rf.file_name)))
    (run1St md5 st0.files files st0)
  have hPnames : (st'.files.map RemoteFile.file_name).Nodup := by
    rw [hst']
    exact List.Nodup.sublist (List.Sublist.map _ hPsub) S1
  constructor
  · intro pc hpc
    obtain ⟨rf, hrfmem, hrfname, hrfhash, hrfsrc⟩ := S7 pc hpc
    have hsurv : rf ∈ st'.files := by
      rw [hst', hPmem rf]
      refine ⟨hrfmem, ?_⟩
      intro q hq rq hrq hequ
      rcases hrfsrc with hin | hge
      · have hrqm := findRemote_mem st0.files q rq hrq
        have heq2 : rf = rq :=
          nodup_map_inj RemoteFile.uuid st0.files huuids rf rq hin
            hrqm.1 hequ
        have hqeq : q = pc.1 := by rw [← hrqm.2, ← heq2, hrfname]
        refine absurd hqeq (((C1mem q).mp hq).2 pc hpc ?_)
        rw [← hqeq, hrq]
        rfl
      · have hrqm := findRemote_mem st0.files q rq hrq
        exact absurd hequ
          (Nat.ne_of_gt (Nat.lt_of_lt_of_le (hfresh rq hrqm.1) hge))
    refine ⟨rf, ?_, hrfhash⟩
    rw [← hrfname]
    exact findRemote_of_nodup_mem st'.files hPnames rf hsurv
  · intro rf hrf
    rw [hst'] at hrf
    obtain ⟨hmem, hnodel⟩ := (hPmem rf).mp hrf
    rcases S5 rf hmem with hin | hkeys'
    · by_contra hnk
      have hq0 : rf.file_name ∈
          dedup (st0.files.map fun rf => rf.file_name) :=
        (mem_dedup _ _).mpr (List.mem_map.mpr ⟨rf, hin, rfl⟩)
      have hq1 : rf.file_name ∈ run1Cand st0.files files
          (dedup (st0.files.map fun rf => rf.file_name)) := by
        refine (C1mem rf.file_name).mpr ⟨hq0, ?_⟩
        intro pc hpc _ hqeq
        apply hnk
        rw [hqeq]
        exact List.mem_map.mpr ⟨pc, hpc, rfl⟩
      have hfr0 : findRemote st0.files rf.file_name = some rf :=
        findRemote_of_nodup_mem st0.files hnames rf hin
      exact (hnodel rf.file_name hq1 rf hfr0) rfl
    · exact hkeys'

/-- **C2.** Running the sync twice in a row against the same provider
— no local filesystem changes, no external remote changes between the
runs — performs zero `upload_file` and zero `delete_file` calls during
the second run: for every local file the remote hash recomputed from
the stored content equals the local hash, and no prune candidates
remain (the second run's operation list and leftover candidate set are
both empty).  Assumed: distinct local relative paths, and a provider
whose run-start records carry distinct names and distinct
not-yet-recycled uuids. -/
theorem c2_second_sync_idle (md5 : String → String) (R : String)
    (files : List (String × String)) (st0 : RemoteState)
    (hkeys : (files.map Prod.fst).Nodup)
    (hnames : (st0.files.map RemoteFile.file_name).Nodup)
    (huuids : (st0.files.map RemoteFile.uuid).Nodup)
    (hfresh : ∀ rf ∈ st0.files, rf.uuid < st0.nextUuid) :
    ∃ r1 r2 : SyncResult,
      _sync_without_compression md5 ⟨R, false, true⟩ (mkLocals md5 files)
        (mkDisk R files) st0 = .ok r1 ∧
      _sync_without_compression md5 ⟨R, false, true⟩ (mkLocals md5 files)
        (mkDisk R files) r1.st = .ok r2 ∧
      r2.ops = [] ∧ r2.leftover = [] ∧
      (∀ pc ∈ files, ∃ rf, findRemote r1.st.files pc.1 = some rf ∧
        md5 rf.content = md5 pc.2) := by
  have hdisk : ∀ pc ∈ files,
      diskRead (mkDisk R files)
        (joinPath (SyncCfg.local_path ⟨R, false, true⟩) pc.1) =
        some pc.2 := by
    intro pc hpc
    exact mkDisk_lookup R files hkeys pc.1 pc.2
      (show (pc.1, pc.2) ∈ files from hpc)
  obtain ⟨ops1, so1, hlp1⟩ :=
    localPass_run1 md5 ⟨R, false, true⟩ (mkDisk R files) st0.files files
      st0 (dedup (st0.files.map fun rf => rf.file_name)) [] hdisk
  obtain ⟨F1, F2⟩ :=
    run1_final_facts md5 files st0 hkeys hnames huuids hfresh
      ((pruneLoop st0.files
        (run1Cand st0.files files
          (dedup (st0.files.map fun rf => rf.file_name)))
        (run1St md5 st0.files files st0)).2) rfl
  have hr1 : _sync_without_compression md5 ⟨R, false, true⟩
      (mkLocals md5 files) (mkDisk R files) st0 =
      .ok ⟨ops1 ++ (pruneLoop st0.files
          (run1Cand st0.files files
            (dedup (st0.files.map fun rf => rf.file_name)))
          (run1St md5 st0.files files st0)).1,
        (pruneLoop st0.files
          (run1Cand st0.files files
            (dedup (st0.files.map fun rf => rf.file_name)))
          (run1St md5 st0.files files st0)).2,
        run1Cand st0.files files
          (dedup (st0.files.map fun rf => rf.file_name)),
        mkDisk R files, so1⟩ := by
    simp only [_sync_without_compression, hlp1, Bool.false_eq_true,
      if_false, if_true, ite_true, ite_false]
  have hsub' : ∀ q ∈ dedup
      (((pruneLoop st0.files
        (run1Cand st0.files files
          (dedup (st0.files.map fun rf => rf.file_name)))
        (run1St md5 st0.files files st0)).2).files.map
          fun rf => rf.file_name),
      q ∈ files.map Prod.fst := by
    intro q hq
    obtain ⟨rf, hrf, hname⟩ := List.mem_map.mp ((mem_dedup _ _).mp hq)
    rw [← hname]
    exact F2 rf hrf
  have hskip := localPass_skip_all md5 ⟨R, false, true⟩ (mkDisk R files)
    ((pruneLoop st0.files
      (run1Cand st0.files files
        (dedup (st0.files.map fun rf => rf.file_name)))
      (run1St md5 st0.files files st0)).2).files files
    ((pruneLoop st0.files
      (run1Cand st0.files files
        (dedup (st0.files.map fun rf => rf.file_name)))
      (run1St md5 st0.files files st0)).2)
    (dedup
      (((pruneLoop st0.files
        (run1Cand st0.files files
          (dedup (st0.files.map fun rf => rf.file_name)))
        (run1St md5 st0.files files st0)).2).files.map
          fun rf => rf.file_name))
    [] F1
  rw [foldl_erase_nil files _ (nodup_dedup _) hsub'] at hskip
  have hr2 : _sync_without_compression md5 ⟨R, false, true⟩
      (mkLocals md5 files) (mkDisk R files)
      ((pruneLoop st0.files
        (run1Cand st0.files files
          (dedup (st0.files.map fun rf => rf.file_name)))
        (run1St md5 st0.files files st0)).2) =
      .ok ⟨[], (pruneLoop st0.files
          (run1Cand st0.files files
            (dedup (st0.files.map fun rf => rf.file_name)))
          (run1St md5 st0.files files st0)).2,
        [], mkDisk R files, []⟩ := by
    simp only [_sync_without_compression, hskip, Bool.false_eq_true,
      if_false, if_true, ite_true, ite_false, pruneLoop,
      List.append_nil]
  exact ⟨_, _, hr1, hr2, rfl, rfl, F1⟩

/-- Witness for **C2**: one local file `a` with content `x` under root
`r`, an initially empty remote, the identity as hash function. -/
theorem c2_second_sync_idle_witness :
    ∃ r1 r2 : SyncResult,
      _sync_without_compression (fun s => s) ⟨"r", false, true⟩
        (mkLocals (fun s => s) [("a", "x")])
        (mkDisk "r" [("a", "x")]) ⟨[], 0⟩ = .ok r1 ∧
      _sync_without_compression (fun s => s) ⟨"r", false, true⟩
        (mkLocals (fun s => s) [("a", "x")])
        (mkDisk "r" [("a", "x")]) r1.st = .ok r2 ∧
      r2.ops = [] ∧ r2.leftover = [] ∧
      (∀ pc ∈ [(("a" : String), ("x" : String))],
        ∃ rf, findRemote r1.st.files pc.1 = some rf ∧
          rf.content = pc.2) :=
  c2_second_sync_idle (fun s => s) "r" [("a", "x")] ⟨[], 0⟩
    (by decide) (by decide) (by decide) (by decide)

end ClaudeSync
